import Mathlib

/-
Verification of the worker-pool scheduler and barrier of this repository
(src/runtime/thread_pool.cc, src/runtime/barrier_test.cc).

The pool is embedded as a labeled transition system.  Every critical section
of the C++ code runs under the single task_queue_lock_, so each lock-held
section becomes one atomic step of the model; blocking on a condition
variable is split into a sleep step (enter the wait, under the lock) and a
wake step (leave the wait, under the lock), with an explicit pending-wakeup
flag set only by Signal/Broadcast, so that a blocked thread never moves
without having been signaled.

Agents:
  - n pool workers (ThreadPoolWorker::Run: Pass the creation barrier, then
    loop GetTask / Task::Run / Task::Finalize until GetTask returns null);
  - one client thread that may submit tasks, start/stop the pool, drain via
    the Wait(do_work=true) loop, and finally run the ThreadPool destructor
    (DeleteThreads, then RemoveAllTasks);
  - one further thread blocked in Wait(do_work=false) on the completion
    condition.

Tasks are identified by the order of submission: AddTask assigns the next
natural number.  The history of scheduling events (dequeues, Task::Run
calls, Task::Finalize calls) is recorded in Config.events.
-/

namespace ThreadPoolModel

/-- Status of one pool worker: at the top of the GetTask loop (idle), inside
task_queue_condition_.Wait (waiting, with a flag recording a delivered
signal/broadcast), holding a dequeued task before calling Run, inside
Task::Run, between Run and Finalize, or exited from the loop. -/
inductive WStatus where
  | idle : WStatus
  | waiting : Bool → WStatus
  | holding : Nat → WStatus
  | running : Nat → WStatus
  | finishing : Nat → WStatus
  | exited : WStatus
deriving DecidableEq

/-- Status of the client thread: free to call the public interface, in the
Wait(do_work=true) drain loop holding/running/finalizing a task, or inside
the destructor: after DeleteThreads set shutting_down_ and broadcast
(cShut), after joining all workers (cJoined), holding a task popped by
RemoveAllTasks (cDrainHold), or done (cDone). -/
inductive CStatus where
  | cIdle : CStatus
  | cHold : Nat → CStatus
  | cRun : Nat → CStatus
  | cFin : Nat → CStatus
  | cShut : CStatus
  | cJoined : CStatus
  | cDrainHold : Nat → CStatus
  | cDone : CStatus
deriving DecidableEq

/-- Status of the thread calling Wait(do_work=false): not yet in Wait,
blocked on completion_condition_ (with a delivered-broadcast flag), or
returned from Wait. -/
inductive WaiterStatus where
  | wIdle : WaiterStatus
  | wBlocked : Bool → WaiterStatus
  | wDone : WaiterStatus
deriving DecidableEq

/-- A scheduling event: a dequeue of task t (tagged with whether a pool
worker performed it), a call to Task::Run on t, or a call to
Task::Finalize on t (tagged with whether Run had been called on t by the
finalizing agent, i.e. worker loop / Wait drain vs RemoveAllTasks). -/
inductive Event where
  | pop : Nat → Bool → Event
  | run : Nat → Event
  | fin : Nat → Bool → Event
deriving DecidableEq

/-- State of the pool, its workers, the client and the Wait caller.
Mirrors the fields of AbstractThreadPool guarded by task_queue_lock_:
tasks_ (queue), started_, shutting_down_, waiting_count_,
max_active_workers_; workers mirrors the roster threads_ (its length is
GetThreadCount()).  nextId counts submissions, events records history. -/
structure Config where
  queue : List Nat
  nextId : Nat
  started : Bool
  shuttingDown : Bool
  waitingCount : Nat
  maxActive : Nat
  workers : List WStatus
  client : CStatus
  waiter : WaiterStatus
  events : List Event
deriving DecidableEq

/-- The pool right after the constructor and CreateThreads: empty queue,
not started, not shutting down, waiting_count_ 0, max_active_workers_ equal
to num_threads (constructor initializer), n workers in their loop. -/
def initConfig (n : Nat) : Config :=
  { queue := [], nextId := 0, started := false, shuttingDown := false,
    waitingCount := 0, maxActive := n, workers := List.replicate n WStatus.idle,
    client := CStatus.cIdle, waiter := WaiterStatus.wIdle, events := [] }

/-- True for client states in which the object is not being destroyed, so
public interface calls (AddTask, StartWorkers, StopWorkers,
SetMaxActiveWorkers) are legal. -/
def CStatus.preDestroy : CStatus → Bool
  | CStatus.cIdle => true
  | CStatus.cHold _ => true
  | CStatus.cRun _ => true
  | CStatus.cFin _ => true
  | _ => false

/-- Effect of task_queue_condition_.Broadcast: every thread blocked in the
condition wait acquires a pending wakeup. -/
def wakeAll (ws : List WStatus) : List WStatus :=
  ws.map fun w =>
    match w with
    | WStatus.waiting _ => WStatus.waiting true
    | w => w

/-- Effect of completion_condition_.Broadcast on the Wait caller. -/
def wakeWaiter : WaiterStatus → WaiterStatus
  | WaiterStatus.wBlocked _ => WaiterStatus.wBlocked true
  | w => w

/-- The exit condition of the loop in AbstractThreadPool::Wait, line 328:
not (not shutting_down_ and (waiting_count_ differs from GetThreadCount()
or HasOutstandingTasks())). -/
def quiescentOrShutdown (c : Config) : Bool :=
  c.shuttingDown || (c.waitingCount == c.workers.length && c.queue.isEmpty)

/-- One scheduling choice: which agent performs its next atomic
(lock-protected) section. -/
inductive Label where
  | addTask : Option Nat → Label
  | startWorkers : Label
  | stopWorkers : Label
  | setMax : Nat → Label
  | pop : Nat → Label
  | sleep : Nat → Label
  | wake : Nat → Label
  | beginRun : Nat → Label
  | endRun : Nat → Label
  | finalizeTask : Nat → Label
  | exitWorker : Nat → Label
  | cTryPop : Label
  | cBeginRun : Label
  | cEndRun : Label
  | cFinalize : Label
  | cDelete : Label
  | cJoin : Label
  | cDrainPop : Label
  | cDrainFin : Label
  | cFinishDrain : Label
  | wEnter : Label
  | wWake : Label
deriving DecidableEq

/-- The transition function, translated from src/runtime/thread_pool.cc.
none means the label is not enabled in this state (its guard fails).

addTask sig: ThreadPool::AddTask, lines 150-157: push_back the new task;
if started_ and waiting_count_ is nonzero, Signal one waiter (sig names
the worker that receives the signal; sig = none models a submission whose
signal is not observed).

startWorkers: AbstractThreadPool::StartWorkers, lines 248-254: started_
true, Broadcast the task condition.

stopWorkers: AbstractThreadPool::StopWorkers, lines 256-259: started_
false, nothing else.

setMax m: AbstractThreadPool::SetMaxActiveWorkers, lines 242-246
(CHECK_LE(max_workers, GetThreadCount()) is the guard; violating it
aborts, hence yields no successor state).

pop i: the successful iteration of the loop of
AbstractThreadPool::GetTask, lines 266-278: requires not shutting down,
active_threads = GetThreadCount() - waiting_count_ at most
max_active_workers_, and a nonempty queue; pops the front task.

sleep i: the blocking branch of GetTask, lines 280-286: no pop was
possible (cap exceeded or queue empty); increment waiting_count_, and if
waiting_count_ equals GetThreadCount() and the queue is empty, Broadcast
the completion condition; then enter task_queue_condition_.Wait.

wake i: return from task_queue_condition_.Wait plus line 291: requires a
delivered wakeup; decrement waiting_count_ and loop (idle).

beginRun i / endRun i / finalizeTask i: ThreadPoolWorker::Run,
lines 114-117: the held task's Run is entered, returns, and Finalize is
called, after which the worker loops back to GetTask.

exitWorker i: GetTask observes shutting_down_ (line 268) and returns
null (line 295), ending the worker loop (line 114).

cTryPop / cBeginRun / cEndRun / cFinalize: the do_work drain loop of
AbstractThreadPool::Wait, lines 318-325, using
ThreadPool::TryGetTaskLocked, lines 303-310 (pop the front task if any;
no admission or started check).

cDelete: the locked section of AbstractThreadPool::DeleteThreads, lines
227-235: shutting_down_ true, Broadcast both conditions.

cJoin: STLDeleteElements(threads_), line 239: the destructor of each
worker joins its thread, so this step requires every worker to have
exited.

cDrainPop / cDrainFin / cFinishDrain: ThreadPool::RemoveAllTasks, lines
159-174, called by the destructor after DeleteThreads (lines 176-179):
repeatedly pop the front task under the lock and Finalize it outside the
lock, returning when the queue is empty.

wEnter / wWake: the loop of AbstractThreadPool::Wait, lines 327-334: test
the exit condition under the lock; block on completion_condition_ while
it fails, recheck on each delivered wakeup. -/
def step (l : Label) (c : Config) : Option Config :=
  match l with
  | Label.addTask sig =>
      if c.client.preDestroy then
        let c1 : Config := { c with queue := c.queue ++ [c.nextId], nextId := c.nextId + 1 }
        match sig with
        | none => some c1
        | some i =>
            if c.started = true ∧ c.workers.get? i = some (WStatus.waiting false) then
              some { c1 with workers := c1.workers.set i (WStatus.waiting true) }
            else none
      else none
  | Label.startWorkers =>
      if c.client.preDestroy then
        some { c with started := true, workers := wakeAll c.workers }
      else none
  | Label.stopWorkers =>
      if c.client.preDestroy then some { c with started := false } else none
  | Label.setMax m =>
      if c.client.preDestroy ∧ m ≤ c.workers.length then
        some { c with maxActive := m }
      else none
  | Label.pop i =>
      if c.workers.get? i = some WStatus.idle ∧ c.shuttingDown = false ∧
          c.workers.length - c.waitingCount ≤ c.maxActive then
        match c.queue with
        | [] => none
        | t :: ts =>
            some { c with queue := ts, workers := c.workers.set i (WStatus.holding t),
                          events := c.events ++ [Event.pop t true] }
      else none
  | Label.sleep i =>
      if c.workers.get? i = some WStatus.idle ∧ c.shuttingDown = false ∧
          (c.maxActive < c.workers.length - c.waitingCount ∨ c.queue = []) then
        some { c with waitingCount := c.waitingCount + 1,
                      workers := c.workers.set i (WStatus.waiting false),
                      waiter := if c.waitingCount + 1 = c.workers.length ∧ c.queue = [] then
                                  wakeWaiter c.waiter
                                else c.waiter }
      else none
  | Label.wake i =>
      if c.workers.get? i = some (WStatus.waiting true) then
        some { c with waitingCount := c.waitingCount - 1,
                      workers := c.workers.set i WStatus.idle }
      else none
  | Label.beginRun i =>
      match c.workers.get? i with
      | some (WStatus.holding t) =>
          some { c with workers := c.workers.set i (WStatus.running t),
                        events := c.events ++ [Event.run t] }
      | _ => none
  | Label.endRun i =>
      match c.workers.get? i with
      | some (WStatus.running t) =>
          some { c with workers := c.workers.set i (WStatus.finishing t) }
      | _ => none
  | Label.finalizeTask i =>
      match c.workers.get? i with
      | some (WStatus.finishing t) =>
          some { c with workers := c.workers.set i WStatus.idle,
                        events := c.events ++ [Event.fin t true] }
      | _ => none
  | Label.exitWorker i =>
      if c.workers.get? i = some WStatus.idle ∧ c.shuttingDown = true then
        some { c with workers := c.workers.set i WStatus.exited }
      else none
  | Label.cTryPop =>
      if c.client = CStatus.cIdle then
        match c.queue with
        | [] => none
        | t :: ts =>
            some { c with queue := ts, client := CStatus.cHold t,
                          events := c.events ++ [Event.pop t false] }
      else none
  | Label.cBeginRun =>
      match c.client with
      | CStatus.cHold t =>
          some { c with client := CStatus.cRun t, events := c.events ++ [Event.run t] }
      | _ => none
  | Label.cEndRun =>
      match c.client with
      | CStatus.cRun t => some { c with client := CStatus.cFin t }
      | _ => none
  | Label.cFinalize =>
      match c.client with
      | CStatus.cFin t =>
          some { c with client := CStatus.cIdle, events := c.events ++ [Event.fin t true] }
      | _ => none
  | Label.cDelete =>
      if c.client = CStatus.cIdle then
        some { c with shuttingDown := true, workers := wakeAll c.workers,
                      waiter := wakeWaiter c.waiter, client := CStatus.cShut }
      else none
  | Label.cJoin =>
      if c.client = CStatus.cShut ∧ c.workers.all (fun w => w = WStatus.exited) then
        some { c with client := CStatus.cJoined }
      else none
  | Label.cDrainPop =>
      if c.client = CStatus.cJoined then
        match c.queue with
        | [] => none
        | t :: ts =>
            some { c with queue := ts, client := CStatus.cDrainHold t,
                          events := c.events ++ [Event.pop t false] }
      else none
  | Label.cDrainFin =>
      match c.client with
      | CStatus.cDrainHold t =>
          some { c with client := CStatus.cJoined, events := c.events ++ [Event.fin t false] }
      | _ => none
  | Label.cFinishDrain =>
      if c.client = CStatus.cJoined ∧ c.queue = [] then
        some { c with client := CStatus.cDone }
      else none
  | Label.wEnter =>
      if c.waiter = WaiterStatus.wIdle then
        if quiescentOrShutdown c then some { c with waiter := WaiterStatus.wDone }
        else some { c with waiter := WaiterStatus.wBlocked false }
      else none
  | Label.wWake =>
      if c.waiter = WaiterStatus.wBlocked true then
        if quiescentOrShutdown c then some { c with waiter := WaiterStatus.wDone }
        else some { c with waiter := WaiterStatus.wBlocked false }
      else none

/-- Run a trace of scheduling choices from a configuration; none if some
step's guard fails along the way. -/
def runTrace (tr : List Label) (c : Config) : Option Config :=
  match tr with
  | [] => some c
  | l :: tr =>
      match step l c with
      | none => none
      | some c' => runTrace tr c'

/-- ThreadPool::TryGetTaskLocked, lines 303-310, as called by
AbstractThreadPool::TryGetTask (lines 298-301) under the lock: if the queue
has outstanding tasks, pop and return the front task; otherwise return
null.  There is no admission-cap or started check in this function. -/
def tryGetTask (c : Config) : Option Nat × Config :=
  match c.queue with
  | [] => (none, c)
  | t :: ts => (some t, { c with queue := ts })

/-- Modelled from the spec: a try_get_task that applies the same admission
logic as get_task (pop only when GetThreadCount() - waiting_count_ is at
most max_active_workers_) and never blocks.  This is the behavior section
4.4 of the spec ascribes to try_get_task; it is compared against the
actual tryGetTask above. -/
def tryGetTaskSpec (c : Config) : Option Nat × Config :=
  if c.workers.length - c.waitingCount ≤ c.maxActive then tryGetTask c
  else (none, c)

/-- AbstractThreadPool::SetMaxActiveWorkers, lines 242-246: under the lock,
CHECK_LE(max_workers, GetThreadCount()), then set max_active_workers_.
none models the CHECK aborting the process. -/
def setMaxActiveWorkers (c : Config) (m : Nat) : Option Config :=
  if m ≤ c.workers.length then some { c with maxActive := m } else none

/-- AbstractThreadPool::CreateThreads, lines 199-214: CHECK(threads_.empty()),
then under the lock clear shutting_down_ and spawn workers until
GetThreadCount() reaches max_active_workers_.  none models the CHECK
aborting the process when the roster is already non-empty. -/
def createThreads (c : Config) : Option Config :=
  if c.workers = [] then
    some { c with shuttingDown := false,
                  workers := List.replicate c.maxActive WStatus.idle }
  else none

/-- Is the worker blocked in task_queue_condition_.Wait? -/
def isWaitingB : WStatus → Bool
  | WStatus.waiting _ => true
  | _ => false

/-- Is the worker at the top of the GetTask loop? -/
def isIdleB : WStatus → Bool
  | WStatus.idle => true
  | _ => false

/-- Is the worker currently inside Task::Run? -/
def isRunningB : WStatus → Bool
  | WStatus.running _ => true
  | _ => false

/-- Has the worker dequeued a task whose Run has not yet returned? -/
def isHoldRunB : WStatus → Bool
  | WStatus.holding _ => true
  | WStatus.running _ => true
  | _ => false

/-- Does the worker own a dequeued, not yet finalized task? -/
def isHRFB : WStatus → Bool
  | WStatus.holding _ => true
  | WStatus.running _ => true
  | WStatus.finishing _ => true
  | _ => false

/-- Has the worker exited its loop? -/
def isExitedB : WStatus → Bool
  | WStatus.exited => true
  | _ => false

/-- Count of workers blocked in task_queue_condition_.Wait. -/
def countWaiting (ws : List WStatus) : Nat := ws.countP isWaitingB

/-- Count of workers at the top of the GetTask loop. -/
def countIdle (ws : List WStatus) : Nat := ws.countP isIdleB

/-- Count of workers currently inside Task::Run. -/
def countRunning (ws : List WStatus) : Nat := ws.countP isRunningB

/-- Count of workers holding a dequeued task they have not yet finished
running (dequeued-not-yet-run, or inside Run). -/
def countHoldRun (ws : List WStatus) : Nat := ws.countP isHoldRunB

/-- Count of workers owning a dequeued, not yet finalized task. -/
def countHRF (ws : List WStatus) : Nat := ws.countP isHRFB

/-- Count of workers that exited their loop. -/
def countExited (ws : List WStatus) : Nat := ws.countP isExitedB

/-- Does this worker own task t (dequeued, not yet finalized)? -/
def holdsT (t : Nat) (w : WStatus) : Bool :=
  match w with
  | WStatus.holding s => s == t
  | WStatus.running s => s == t
  | WStatus.finishing s => s == t
  | _ => false

/-- Is this worker inside or past Run of task t (Run called, Finalize not
yet)? -/
def ranT (t : Nat) (w : WStatus) : Bool :=
  match w with
  | WStatus.running s => s == t
  | WStatus.finishing s => s == t
  | _ => false

/-- Does the client own task t (dequeued by the Wait drain or by
RemoveAllTasks, not yet finalized)? -/
def clientHoldsT (t : Nat) (s : CStatus) : Bool :=
  match s with
  | CStatus.cHold u => u == t
  | CStatus.cRun u => u == t
  | CStatus.cFin u => u == t
  | CStatus.cDrainHold u => u == t
  | _ => false

/-- Is the client inside or past Run of task t, Finalize not yet called? -/
def clientRanT (t : Nat) (s : CStatus) : Bool :=
  match s with
  | CStatus.cRun u => u == t
  | CStatus.cFin u => u == t
  | _ => false

/-- Number of owners of task t: occurrences in the queue, workers owning
it, and the client if it owns it. -/
def holders (c : Config) (t : Nat) : Nat :=
  c.queue.count t + c.workers.countP (holdsT t) +
    (if clientHoldsT t c.client then 1 else 0)

/-- Number of agents that called Run on t and not yet Finalize. -/
def activeRunCount (c : Config) (t : Nat) : Nat :=
  c.workers.countP (ranT t) + (if clientRanT t c.client then 1 else 0)

/-- 1 if task t has been submitted to the pool, else 0. -/
def submittedInd (c : Config) (t : Nat) : Nat :=
  if t < c.nextId then 1 else 0

/-- The task of a dequeue event. -/
def popId : Event → Option Nat
  | Event.pop t _ => some t
  | _ => none

/-- The task of a dequeue event performed by a pool worker. -/
def workerPopId : Event → Option Nat
  | Event.pop t true => some t
  | _ => none

/-- The task of a Run event. -/
def runId : Event → Option Nat
  | Event.run t => some t
  | _ => none

/-- The sequence of dequeued tasks, in dequeue order. -/
def popsOf (evs : List Event) : List Nat := evs.filterMap popId

/-- The sequence of tasks dequeued by pool workers, in dequeue order. -/
def workerPopsOf (evs : List Event) : List Nat := evs.filterMap workerPopId

/-- The sequence of tasks on which Run was called, in call order. -/
def runsOf (evs : List Event) : List Nat := evs.filterMap runId

/-- How many times Run was called on task t. -/
def runCount (evs : List Event) (t : Nat) : Nat :=
  evs.countP fun e => e == Event.run t

/-- How many times Finalize was called on task t. -/
def finCount (evs : List Event) (t : Nat) : Nat :=
  evs.countP fun e =>
    match e with
    | Event.fin s _ => s == t
    | _ => false

/-- How many times Finalize was called on task t after its Run. -/
def finRanCount (evs : List Event) (t : Nat) : Nat :=
  evs.countP fun e => e == Event.fin t true

/-- How many times Finalize was called on task t without a Run (drain). -/
def finNotRanCount (evs : List Event) (t : Nat) : Nat :=
  evs.countP fun e => e == Event.fin t false

/-- The history contains a Run of t and, later, a post-Run Finalize of t. -/
def RunThenFin (evs : List Event) (t : Nat) : Prop :=
  ∃ l m r, evs = l ++ Event.run t :: m ++ Event.fin t true :: r

/-- Is the client past the join of all worker threads (so inside or past
RemoveAllTasks)? -/
def joinedPhase : CStatus → Bool
  | CStatus.cJoined => true
  | CStatus.cDrainHold _ => true
  | CStatus.cDone => true
  | _ => false

end ThreadPoolModel

namespace BarrierModel

/-- Modelled from the spec: the Barrier of section 4.1 (its implementation
file is not among the sources, only its test src/runtime/barrier_test.cc).
State: the signed counter and the parties currently blocked on the
condition variable.  The lock is implicit: each operation is one atomic
step. -/
structure BarrierState where
  count : Int
  blocked : List Nat
deriving DecidableEq

/-- Modelled from the spec: the shared adjust-count routine. count += delta
under the lock; any mutation that brings count to exactly zero wakes all
blocked parties. -/
def adjust (b : BarrierState) (d : Int) : BarrierState :=
  { count := b.count + d,
    blocked := if b.count + d = 0 then [] else b.blocked }

/-- Modelled from the spec: increment(delta) (and pass, which is
increment(-1)): adjust the count, wake all iff it reached zero, return
without blocking. -/
def increment (b : BarrierState) (d : Int) : BarrierState := adjust b d

/-- Modelled from the spec: increment_and_wait(delta) by party p (wait() is
increment_and_wait(-1)): adjust the count, then block the caller while
count > 0; the caller returns without blocking when the new count is at
most zero. -/
def incrementAndWait (b : BarrierState) (p : Nat) (d : Int) : BarrierState :=
  let b1 := adjust b d
  if 0 < b1.count then { b1 with blocked := p :: b1.blocked } else b1

/-- Modelled from the spec: init(count): re-arm the barrier; precondition
(fatal if violated) that no party is currently blocked. -/
def initBarrier (b : BarrierState) (v : Int) : Option BarrierState :=
  if b.blocked = [] then some { count := v, blocked := [] } else none

/-- Modelled from the spec: the timeout of increment_and_wait(delta,
timeout) elapsing before count reaches zero: the party stops blocking and
receives a timed-out indicator; the already-applied delta is not
retracted. -/
def timeoutFire (b : BarrierState) (p : Nat) : BarrierState × Bool :=
  ({ b with blocked := b.blocked.erase p }, true)

/-- A contribution to the barrier: a non-blocking increment/pass, or an
increment_and_wait by some party. -/
inductive BOp where
  | inc : Int → BOp
  | incWait : Nat → Int → BOp
deriving DecidableEq

/-- Apply one contribution. -/
def applyOp (b : BarrierState) (o : BOp) : BarrierState :=
  match o with
  | BOp.inc d => increment b d
  | BOp.incWait p d => incrementAndWait b p d

/-- Apply a sequence of contributions in order. -/
def applyOps (b : BarrierState) (os : List BOp) : BarrierState :=
  os.foldl applyOp b

/-- The delta contributed by an operation. -/
def deltaOf : BOp → Int
  | BOp.inc d => d
  | BOp.incWait _ d => d

/-- Sum of the deltas of a sequence of contributions. -/
def sumDeltas (os : List BOp) : Int := (os.map deltaOf).sum

/-- Accumulate the party of a blocking contribution. -/
def waiterStep (acc : List Nat) (o : BOp) : List Nat :=
  match o with
  | BOp.inc _ => acc
  | BOp.incWait p _ => p :: acc

/-- The parties that block during a sequence of contributions started from
a positive count that never reaches zero or below. -/
def waitersOf (os : List BOp) : List Nat := os.foldl waiterStep []

/-- The party list contributed by a single operation. -/
def partyOf : BOp → List Nat
  | BOp.inc _ => []
  | BOp.incWait p _ => [p]

end BarrierModel

namespace ThreadPoolModel

/-- Updating one list element changes a countP by swapping the old
element's contribution for the new one's. -/
theorem countP_set_add {α : Type} (p : α → Bool) (l : List α) (i : Nat) (a b : α)
    (h : l.get? i = some a) :
    (l.set i b).countP p + (if p a then 1 else 0)
      = l.countP p + (if p b then 1 else 0) := by
  induction l generalizing i with
  | nil => simp at h
  | cons x xs ih =>
    cases i with
    | zero =>
      simp only [List.get?] at h
      cases h
      simp [List.countP_cons]
      omega
    | succ j =>
      simp only [List.get?] at h
      have hx := ih j h
      simp [List.countP_cons]
      omega

/-- An element fetched by get? satisfying p makes countP positive. -/
theorem countP_pos_of_get {α : Type} (p : α → Bool) (l : List α) (i : Nat) (a : α)
    (h : l.get? i = some a) (hp : p a = true) : 1 ≤ l.countP p := by
  have hm : a ∈ l := List.get?_mem h
  exact (List.countP_pos_iff (p := p)).mpr ⟨a, hm, hp⟩

/-- Broadcast maps each status pointwise. -/
theorem wakeAll_cons (w : WStatus) (ws : List WStatus) :
    wakeAll (w :: ws)
      = (match w with
          | WStatus.waiting _ => WStatus.waiting true
          | w => w) :: wakeAll ws := rfl

/-- Broadcasting does not change the number of blocked workers. -/
theorem wakeAll_countP (p : WStatus → Bool)
    (hp : p (WStatus.waiting true) = p (WStatus.waiting false)) (ws : List WStatus) :
    (wakeAll ws).countP p = ws.countP p := by
  induction ws with
  | nil => rfl
  | cons w ws ih =>
    rw [wakeAll_cons, List.countP_cons, List.countP_cons, ih]
    cases w with
    | waiting b =>
      cases b
      · rw [hp]
      · rfl
    | idle => rfl
    | holding t => rfl
    | running t => rfl
    | finishing t => rfl
    | exited => rfl

/-- Broadcasting preserves the roster size. -/
theorem wakeAll_length (ws : List WStatus) : (wakeAll ws).length = ws.length := by
  simp [wakeAll]

/-- The worker statuses partition the roster. -/
theorem workers_partition (ws : List WStatus) :
    countIdle ws + countWaiting ws + countHRF ws + countExited ws = ws.length := by
  induction ws with
  | nil => rfl
  | cons w ws ih =>
    cases w <;>
      simp [countIdle, countWaiting, countHRF, countExited, isIdleB, isWaitingB,
        isHRFB, isExitedB, List.countP_cons] at ih ⊢ <;>
      omega

/-- Workers inside or before Run are among the owners of dequeued tasks. -/
theorem countHoldRun_le_countHRF (ws : List WStatus) : countHoldRun ws ≤ countHRF ws := by
  induction ws with
  | nil => exact Nat.le_refl 0
  | cons w ws ih =>
    cases w <;> simp [countHoldRun, countHRF, isHoldRunB, isHRFB, List.countP_cons] at ih ⊢ <;> omega

/-- Workers inside Run are among those inside or before Run. -/
theorem countRunning_le_countHoldRun (ws : List WStatus) :
    countRunning ws ≤ countHoldRun ws := by
  induction ws with
  | nil => exact Nat.le_refl 0
  | cons w ws ih =>
    cases w <;> simp [countRunning, countHoldRun, isRunningB, isHoldRunB, List.countP_cons] at ih ⊢ <;> omega

/-- Updating a slot with an element equivalent under p keeps countP. -/
theorem countP_set_eq {α : Type} (p : α → Bool) (l : List α) (i : Nat) (a b : α)
    (h : l.get? i = some a) (hab : p a = p b) :
    (l.set i b).countP p = l.countP p := by
  have hx := countP_set_add p l i a b h
  rw [hab] at hx
  omega

/-- Updating a slot from a p-element to a non-p-element drops countP by
one. -/
theorem countP_set_tf {α : Type} (p : α → Bool) (l : List α) (i : Nat) (a b : α)
    (h : l.get? i = some a) (hpa : p a = true) (hpb : p b = false) :
    (l.set i b).countP p + 1 = l.countP p := by
  have hx := countP_set_add p l i a b h
  rw [hpa, hpb] at hx
  simp at hx
  omega

/-- Updating a slot from a non-p-element to a p-element raises countP by
one. -/
theorem countP_set_ft {α : Type} (p : α → Bool) (l : List α) (i : Nat) (a b : α)
    (h : l.get? i = some a) (hpa : p a = false) (hpb : p b = true) :
    (l.set i b).countP p = l.countP p + 1 := by
  have hx := countP_set_add p l i a b h
  rw [hpa, hpb] at hx
  simp at hx
  omega

/-- Appending a dequeue event appends its task to the dequeue sequence. -/
theorem popsOf_append_pop (evs : List Event) (t : Nat) (b : Bool) :
    popsOf (evs ++ [Event.pop t b]) = popsOf evs ++ [t] := by
  simp [popsOf, popId]

/-- Appending a Run event leaves the dequeue sequence unchanged. -/
theorem popsOf_append_run (evs : List Event) (t : Nat) :
    popsOf (evs ++ [Event.run t]) = popsOf evs := by
  simp [popsOf, popId]

/-- Appending a Finalize event leaves the dequeue sequence unchanged. -/
theorem popsOf_append_fin (evs : List Event) (t : Nat) (b : Bool) :
    popsOf (evs ++ [Event.fin t b]) = popsOf evs := by
  simp [popsOf, popId]

/-- A worker dequeue extends the worker dequeue sequence. -/
theorem workerPopsOf_append_pop (evs : List Event) (t : Nat) :
    workerPopsOf (evs ++ [Event.pop t true]) = workerPopsOf evs ++ [t] := by
  simp [workerPopsOf, workerPopId]

/-- A client dequeue does not extend the worker dequeue sequence. -/
theorem workerPopsOf_append_cpop (evs : List Event) (t : Nat) :
    workerPopsOf (evs ++ [Event.pop t false]) = workerPopsOf evs := by
  simp [workerPopsOf, workerPopId]

/-- Run events do not extend the worker dequeue sequence. -/
theorem workerPopsOf_append_run (evs : List Event) (t : Nat) :
    workerPopsOf (evs ++ [Event.run t]) = workerPopsOf evs := by
  simp [workerPopsOf, workerPopId]

/-- Finalize events do not extend the worker dequeue sequence. -/
theorem workerPopsOf_append_fin (evs : List Event) (t : Nat) (b : Bool) :
    workerPopsOf (evs ++ [Event.fin t b]) = workerPopsOf evs := by
  simp [workerPopsOf, workerPopId]

/-- Appending a Run event appends its task to the Run sequence. -/
theorem runsOf_append_run (evs : List Event) (t : Nat) :
    runsOf (evs ++ [Event.run t]) = runsOf evs ++ [t] := by
  simp [runsOf, runId]

/-- Appending a dequeue event leaves the Run sequence unchanged. -/
theorem runsOf_append_pop (evs : List Event) (t : Nat) (b : Bool) :
    runsOf (evs ++ [Event.pop t b]) = runsOf evs := by
  simp [runsOf, runId]

/-- Appending a Finalize event leaves the Run sequence unchanged. -/
theorem runsOf_append_fin (evs : List Event) (t : Nat) (b : Bool) :
    runsOf (evs ++ [Event.fin t b]) = runsOf evs := by
  simp [runsOf, runId]

/-- Run counts after appending a Run event. -/
theorem runCount_append_run (evs : List Event) (t s : Nat) :
    runCount (evs ++ [Event.run s]) t
      = runCount evs t + (if s = t then 1 else 0) := by
  by_cases h : s = t <;>
    simp [runCount, List.countP_append, List.countP_cons, h]

/-- Run counts ignore dequeue events. -/
theorem runCount_append_pop (evs : List Event) (t s : Nat) (b : Bool) :
    runCount (evs ++ [Event.pop s b]) t = runCount evs t := by
  simp [runCount, List.countP_append, List.countP_cons]

/-- Run counts ignore Finalize events. -/
theorem runCount_append_fin (evs : List Event) (t s : Nat) (b : Bool) :
    runCount (evs ++ [Event.fin s b]) t = runCount evs t := by
  simp [runCount, List.countP_append, List.countP_cons]

/-- Finalize counts after appending a Finalize event. -/
theorem finCount_append_fin (evs : List Event) (t s : Nat) (b : Bool) :
    finCount (evs ++ [Event.fin s b]) t
      = finCount evs t + (if s = t then 1 else 0) := by
  by_cases h : s = t <;>
    simp [finCount, List.countP_append, List.countP_cons, h]

/-- Finalize counts ignore dequeue events. -/
theorem finCount_append_pop (evs : List Event) (t s : Nat) (b : Bool) :
    finCount (evs ++ [Event.pop s b]) t = finCount evs t := by
  simp [finCount, List.countP_append, List.countP_cons]

/-- Finalize counts ignore Run events. -/
theorem finCount_append_run (evs : List Event) (t s : Nat) :
    finCount (evs ++ [Event.run s]) t = finCount evs t := by
  simp [finCount, List.countP_append, List.countP_cons]

/-- Post-Run Finalize counts after appending a Finalize event. -/
theorem finRanCount_append_fin (evs : List Event) (t s : Nat) (b : Bool) :
    finRanCount (evs ++ [Event.fin s b]) t
      = finRanCount evs t + (if s = t ∧ b = true then 1 else 0) := by
  by_cases h : s = t <;> cases b <;>
    simp [finRanCount, List.countP_append, List.countP_cons, h]

/-- Post-Run Finalize counts ignore dequeue events. -/
theorem finRanCount_append_pop (evs : List Event) (t s : Nat) (b : Bool) :
    finRanCount (evs ++ [Event.pop s b]) t = finRanCount evs t := by
  simp [finRanCount, List.countP_append, List.countP_cons]

/-- Post-Run Finalize counts ignore Run events. -/
theorem finRanCount_append_run (evs : List Event) (t s : Nat) :
    finRanCount (evs ++ [Event.run s]) t = finRanCount evs t := by
  simp [finRanCount, List.countP_append, List.countP_cons]

/-- Drain Finalize counts after appending a Finalize event. -/
theorem finNotRanCount_append_fin (evs : List Event) (t s : Nat) (b : Bool) :
    finNotRanCount (evs ++ [Event.fin s b]) t
      = finNotRanCount evs t + (if s = t ∧ b = false then 1 else 0) := by
  by_cases h : s = t <;> cases b <;>
    simp [finNotRanCount, List.countP_append, List.countP_cons, h]

/-- Drain Finalize counts ignore dequeue events. -/
theorem finNotRanCount_append_pop (evs : List Event) (t s : Nat) (b : Bool) :
    finNotRanCount (evs ++ [Event.pop s b]) t = finNotRanCount evs t := by
  simp [finNotRanCount, List.countP_append, List.countP_cons]

/-- Drain Finalize counts ignore Run events. -/
theorem finNotRanCount_append_run (evs : List Event) (t s : Nat) :
    finNotRanCount (evs ++ [Event.run s]) t = finNotRanCount evs t := by
  simp [finNotRanCount, List.countP_append, List.countP_cons]

/-- Every Finalize of t is a post-Run Finalize or a drain Finalize. -/
theorem finCount_split (evs : List Event) (t : Nat) :
    finCount evs t = finRanCount evs t + finNotRanCount evs t := by
  induction evs with
  | nil => rfl
  | cons e evs ih =>
    cases e with
    | pop s b => simpa [finCount, finRanCount, finNotRanCount, List.countP_cons] using ih
    | run s => simpa [finCount, finRanCount, finNotRanCount, List.countP_cons] using ih
    | fin s b =>
      by_cases h : s = t <;> cases b <;>
        simp [finCount, finRanCount, finNotRanCount, List.countP_cons, h] at ih ⊢ <;>
        omega

/-- A positive Run count yields a Run event in the history. -/
theorem run_mem_of_runCount_pos (evs : List Event) (t : Nat)
    (h : 1 ≤ runCount evs t) : Event.run t ∈ evs := by
  have := (List.countP_pos_iff (p := fun e => e == Event.run t) (l := evs)).mp h
  obtain ⟨e, he, hpe⟩ := this
  have : e = Event.run t := by simpa using hpe
  exact this ▸ he

/-- A Run-then-Finalize pattern survives appending any event. -/
theorem runThenFin_append (evs : List Event) (e : Event) (t : Nat)
    (h : RunThenFin evs t) : RunThenFin (evs ++ [e]) t := by
  obtain ⟨l, m, r, hx⟩ := h
  exact ⟨l, m, r ++ [e], by simp [hx]⟩

/-- Appending a post-Run Finalize of t after a Run of t creates the
Run-then-Finalize pattern. -/
theorem runThenFin_of_mem_run (evs : List Event) (t : Nat)
    (h : Event.run t ∈ evs) : RunThenFin (evs ++ [Event.fin t true]) t := by
  obtain ⟨s, u, hx⟩ := List.append_of_mem h
  exact ⟨s, u, [], by simp [hx]⟩

/-- The state invariant of the pool model, preserved by every step.
waitEq: waiting_count_ counts exactly the workers blocked in the task
condition wait.  queueSorted/queueLt: the queue holds distinct task ids
in submission order, all already submitted.  popsSorted/popsLt/popsQueue:
dequeues happen in submission order, and every dequeued id precedes every
id still queued.  ownership: each submitted task has exactly one owner
(queue slot, worker, or client) until its single Finalize, and tasks never
submitted have none.  runEq: Run calls on t are exactly the agents
currently between Run and Finalize of t plus post-Run Finalizes of t.
runFinOrder: a post-Run Finalize of t is preceded by the Run of t.
drainNoRun: a task finalized by the drain path was never run.
joinedExited: once the destructor has joined the workers, every worker
has exited.  doneQueue: when the destructor is done the queue is empty. -/
structure Inv (c : Config) : Prop where
  waitEq : c.waitingCount = countWaiting c.workers
  queueSorted : c.queue.Pairwise (fun a b => a < b)
  queueLt : ∀ x ∈ c.queue, x < c.nextId
  popsSorted : (popsOf c.events).Pairwise (fun a b => a < b)
  popsLt : ∀ y ∈ popsOf c.events, y < c.nextId
  popsQueue : ∀ y ∈ popsOf c.events, ∀ x ∈ c.queue, y < x
  ownership : ∀ t, holders c t + finCount c.events t = submittedInd c t
  runEq : ∀ t, runCount c.events t = activeRunCount c t + finRanCount c.events t
  runFinOrder : ∀ t, 1 ≤ finRanCount c.events t → RunThenFin c.events t
  drainNoRun : ∀ t, 1 ≤ finNotRanCount c.events t → runCount c.events t = 0
  joinedExited : joinedPhase c.client = true → ∀ w ∈ c.workers, w = WStatus.exited
  doneQueue : c.client = CStatus.cDone → c.queue = []

/-- The invariant only looks at the queue, submission counter, waiting
count, worker statuses, client status and event history. -/
theorem inv_of_proj (c c' : Config)
    (h1 : c'.queue = c.queue) (h2 : c'.nextId = c.nextId)
    (h3 : c'.waitingCount = c.waitingCount) (h4 : c'.workers = c.workers)
    (h5 : c'.client = c.client) (h6 : c'.events = c.events)
    (hc : Inv c) : Inv c' := by
  cases c'
  dsimp at h1 h2 h3 h4 h5 h6
  subst h1; subst h2; subst h3; subst h4; subst h5; subst h6
  exact ⟨hc.waitEq, hc.queueSorted, hc.queueLt, hc.popsSorted, hc.popsLt,
    hc.popsQueue, hc.ownership, hc.runEq, hc.runFinOrder, hc.drainNoRun,
    hc.joinedExited, hc.doneQueue⟩

/-- A countP over the fresh all-idle roster vanishes when idle fails the
predicate. -/
theorem countP_replicate_idle (n : Nat) (p : WStatus → Bool)
    (hp : p WStatus.idle = false) :
    (List.replicate n WStatus.idle).countP p = 0 := by
  induction n with
  | zero => rfl
  | succ k ih => simp [List.replicate_succ, List.countP_cons, hp, ih]

/-- The invariant holds initially. -/
theorem inv_init (n : Nat) : Inv (initConfig n) := by
  constructor
  · exact (countP_replicate_idle n isWaitingB rfl).symm
  · simp [initConfig]
  · simp [initConfig]
  · simp [initConfig, popsOf]
  · simp [initConfig, popsOf]
  · simp [initConfig, popsOf]
  · intro t
    simp [initConfig, holders, finCount, submittedInd, clientHoldsT,
      countP_replicate_idle n (holdsT t) rfl]
  · intro t
    simp [initConfig, runCount, activeRunCount, finRanCount, clientRanT,
      countP_replicate_idle n (ranT t) rfl]
  · intro t h
    simp [initConfig, finRanCount] at h
  · intro t h
    simp [initConfig, finNotRanCount] at h
  · intro h
    simp [initConfig, joinedPhase] at h
  · intro h
    simp [initConfig]

/-- Broadcasting keeps the waiting-worker count. -/
theorem wakeAll_countWaiting (ws : List WStatus) :
    countWaiting (wakeAll ws) = countWaiting ws :=
  wakeAll_countP isWaitingB rfl ws

/-- Broadcasting keeps the owners of each task. -/
theorem wakeAll_countP_holdsT (t : Nat) (ws : List WStatus) :
    (wakeAll ws).countP (holdsT t) = ws.countP (holdsT t) :=
  wakeAll_countP (holdsT t) rfl ws

/-- Broadcasting keeps the running agents of each task. -/
theorem wakeAll_countP_ranT (t : Nat) (ws : List WStatus) :
    (wakeAll ws).countP (ranT t) = ws.countP (ranT t) :=
  wakeAll_countP (ranT t) rfl ws

/-- A client that may still call the interface is not past the join. -/
theorem joinedPhase_false_of_preDestroy (s : CStatus) (h : s.preDestroy = true) :
    joinedPhase s = false := by
  cases s <;> simp [CStatus.preDestroy, joinedPhase] at h ⊢

/-- A client that may still call the interface is not done destroying. -/
theorem ne_cDone_of_preDestroy (s : CStatus) (h : s.preDestroy = true) :
    s ≠ CStatus.cDone := by
  cases s <;> simp [CStatus.preDestroy] at h ⊢

/-- While some worker has not exited, the destructor has not joined. -/
theorem joinedPhase_false_of_get (c : Config) (hc : Inv c) (i : Nat) (a : WStatus)
    (hw : c.workers.get? i = some a) (ha : a ≠ WStatus.exited) :
    joinedPhase c.client = false := by
  cases hj : joinedPhase c.client
  · rfl
  · exact absurd (hc.joinedExited hj a (List.get?_mem hw)) ha

/-- StopWorkers preserves the invariant. -/
theorem inv_stopWorkers (c c' : Config)
    (h : step Label.stopWorkers c = some c') (hc : Inv c) : Inv c' := by
  simp only [step] at h
  split at h
  · simp only [Option.some.injEq] at h
    subst h
    exact inv_of_proj c _ rfl rfl rfl rfl rfl rfl hc
  · simp at h

/-- SetMaxActiveWorkers preserves the invariant. -/
theorem inv_setMax (c c' : Config) (m : Nat)
    (h : step (Label.setMax m) c = some c') (hc : Inv c) : Inv c' := by
  simp only [step] at h
  split at h
  · simp only [Option.some.injEq] at h
    subst h
    exact inv_of_proj c _ rfl rfl rfl rfl rfl rfl hc
  · simp at h

/-- Entering Wait preserves the invariant. -/
theorem inv_wEnter (c c' : Config)
    (h : step Label.wEnter c = some c') (hc : Inv c) : Inv c' := by
  simp only [step] at h
  split at h
  · split at h <;>
      (simp only [Option.some.injEq] at h; subst h;
       exact inv_of_proj c _ rfl rfl rfl rfl rfl rfl hc)
  · simp at h

/-- Rechecking inside Wait preserves the invariant. -/
theorem inv_wWake (c c' : Config)
    (h : step Label.wWake c = some c') (hc : Inv c) : Inv c' := by
  simp only [step] at h
  split at h
  · split at h <;>
      (simp only [Option.some.injEq] at h; subst h;
       exact inv_of_proj c _ rfl rfl rfl rfl rfl rfl hc)
  · simp at h

/-- Joining the worker threads preserves the invariant. -/
theorem inv_cJoin (c c' : Config)
    (h : step Label.cJoin c = some c') (hc : Inv c) : Inv c' := by
  simp only [step] at h
  split at h
  case isTrue hg =>
    obtain ⟨hcl, hall⟩ := hg
    simp only [Option.some.injEq] at h
    subst h
    refine ⟨hc.waitEq, hc.queueSorted, hc.queueLt, hc.popsSorted, hc.popsLt,
      hc.popsQueue, ?_, ?_, hc.runFinOrder, hc.drainNoRun, ?_, ?_⟩
    · intro t
      have hx := hc.ownership t
      simp only [holders] at hx ⊢
      rw [hcl] at hx
      simpa [clientHoldsT, submittedInd] using hx
    · intro t
      have hx := hc.runEq t
      simp only [activeRunCount] at hx ⊢
      rw [hcl] at hx
      simpa [clientRanT] using hx
    · intro _ w hw
      rw [List.all_eq_true] at hall
      have := hall w hw
      simpa using this
    · intro hd
      simp at hd
  case isFalse => simp at h

/-- StartWorkers preserves the invariant. -/
theorem inv_startWorkers (c c' : Config)
    (h : step Label.startWorkers c = some c') (hc : Inv c) : Inv c' := by
  simp only [step] at h
  split at h
  case isTrue hg =>
    simp only [Option.some.injEq] at h
    subst h
    refine ⟨?_, hc.queueSorted, hc.queueLt, hc.popsSorted, hc.popsLt,
      hc.popsQueue, ?_, ?_, hc.runFinOrder, hc.drainNoRun, ?_, ?_⟩
    · show c.waitingCount = countWaiting (wakeAll c.workers)
      rw [wakeAll_countWaiting]
      exact hc.waitEq
    · intro t
      have hx := hc.ownership t
      simp only [holders, submittedInd] at hx ⊢
      rw [wakeAll_countP_holdsT]
      exact hx
    · intro t
      have hx := hc.runEq t
      simp only [activeRunCount] at hx ⊢
      rw [wakeAll_countP_ranT]
      exact hx
    · intro hj
      rw [joinedPhase_false_of_preDestroy _ hg] at hj
      cases hj
    · intro hd
      exact absurd hd (ne_cDone_of_preDestroy _ hg)
  case isFalse => simp at h

/-- The locked section of DeleteThreads preserves the invariant. -/
theorem inv_cDelete (c c' : Config)
    (h : step Label.cDelete c = some c') (hc : Inv c) : Inv c' := by
  simp only [step] at h
  split at h
  case isTrue hcl =>
    simp only [Option.some.injEq] at h
    subst h
    refine ⟨?_, hc.queueSorted, hc.queueLt, hc.popsSorted, hc.popsLt,
      hc.popsQueue, ?_, ?_, hc.runFinOrder, hc.drainNoRun, ?_, ?_⟩
    · show c.waitingCount = countWaiting (wakeAll c.workers)
      rw [wakeAll_countWaiting]
      exact hc.waitEq
    · intro t
      have hx := hc.ownership t
      simp only [holders, submittedInd] at hx ⊢
      rw [hcl] at hx
      rw [wakeAll_countP_holdsT]
      simpa [clientHoldsT] using hx
    · intro t
      have hx := hc.runEq t
      simp only [activeRunCount] at hx ⊢
      rw [hcl] at hx
      rw [wakeAll_countP_ranT]
      simpa [clientRanT] using hx
    · intro hj
      simp [joinedPhase] at hj
    · intro hd
      simp at hd
  case isFalse => simp at h

/-- Waking from the task condition preserves the invariant. -/
theorem inv_wake (c c' : Config) (i : Nat)
    (h : step (Label.wake i) c = some c') (hc : Inv c) : Inv c' := by
  simp only [step] at h
  split at h
  case isTrue hw =>
    simp only [Option.some.injEq] at h
    subst h
    refine ⟨?_, hc.queueSorted, hc.queueLt, hc.popsSorted, hc.popsLt,
      hc.popsQueue, ?_, ?_, hc.runFinOrder, hc.drainNoRun, ?_, hc.doneQueue⟩
    · have hset : countWaiting (c.workers.set i WStatus.idle) + 1 = countWaiting c.workers :=
        countP_set_tf isWaitingB c.workers i _ WStatus.idle hw rfl rfl
      have hx := hc.waitEq
      show c.waitingCount - 1 = countWaiting (c.workers.set i WStatus.idle)
      omega
    · intro t
      have hset := countP_set_eq (holdsT t) c.workers i _ WStatus.idle hw rfl
      have hx := hc.ownership t
      simp only [holders] at hx ⊢
      rw [hset]
      exact hx
    · intro t
      have hset := countP_set_eq (ranT t) c.workers i _ WStatus.idle hw rfl
      have hx := hc.runEq t
      simp only [activeRunCount] at hx ⊢
      rw [hset]
      exact hx
    · intro hj
      have hj' : joinedPhase c.client = true := hj
      rw [joinedPhase_false_of_get c hc i _ hw (by simp)] at hj'
      cases hj'
  case isFalse => simp at h

/-- A worker exiting its loop at shutdown preserves the invariant. -/
theorem inv_exitWorker (c c' : Config) (i : Nat)
    (h : step (Label.exitWorker i) c = some c') (hc : Inv c) : Inv c' := by
  simp only [step] at h
  split at h
  case isTrue hg =>
    obtain ⟨hw, hsd⟩ := hg
    simp only [Option.some.injEq] at h
    subst h
    refine ⟨?_, hc.queueSorted, hc.queueLt, hc.popsSorted, hc.popsLt,
      hc.popsQueue, ?_, ?_, hc.runFinOrder, hc.drainNoRun, ?_, hc.doneQueue⟩
    · have hset := countP_set_eq isWaitingB c.workers i _ WStatus.exited hw rfl
      have hx := hc.waitEq
      simp only [countWaiting] at hx ⊢
      rw [hset]
      exact hx
    · intro t
      have hset := countP_set_eq (holdsT t) c.workers i _ WStatus.exited hw rfl
      have hx := hc.ownership t
      simp only [holders] at hx ⊢
      rw [hset]
      exact hx
    · intro t
      have hset := countP_set_eq (ranT t) c.workers i _ WStatus.exited hw rfl
      have hx := hc.runEq t
      simp only [activeRunCount] at hx ⊢
      rw [hset]
      exact hx
    · intro hj
      have hj' : joinedPhase c.client = true := hj
      rw [joinedPhase_false_of_get c hc i _ hw (by simp)] at hj'
      cases hj'
  case isFalse => simp at h

/-- A worker returning from Task::Run preserves the invariant. -/
theorem inv_endRun (c c' : Config) (i : Nat)
    (h : step (Label.endRun i) c = some c') (hc : Inv c) : Inv c' := by
  simp only [step] at h
  cases hw : c.workers.get? i with
  | none => rw [hw] at h; simp at h
  | some w =>
    rw [hw] at h
    cases w with
    | running t0 =>
      simp only [Option.some.injEq] at h
      subst h
      refine ⟨?_, hc.queueSorted, hc.queueLt, hc.popsSorted, hc.popsLt,
        hc.popsQueue, ?_, ?_, hc.runFinOrder, hc.drainNoRun, ?_, hc.doneQueue⟩
      · have hset := countP_set_eq isWaitingB c.workers i _ (WStatus.finishing t0) hw rfl
        have hx := hc.waitEq
        simp only [countWaiting] at hx ⊢
        rw [hset]
        exact hx
      · intro t
        have hset := countP_set_eq (holdsT t) c.workers i _ (WStatus.finishing t0) hw rfl
        have hx := hc.ownership t
        simp only [holders] at hx ⊢
        rw [hset]
        exact hx
      · intro t
        have hset := countP_set_eq (ranT t) c.workers i _ (WStatus.finishing t0) hw rfl
        have hx := hc.runEq t
        simp only [activeRunCount] at hx ⊢
        rw [hset]
        exact hx
      · intro hj
        have hj' : joinedPhase c.client = true := hj
        rw [joinedPhase_false_of_get c hc i _ hw (by simp)] at hj'
        cases hj'
    | idle => simp at h
    | waiting b => simp at h
    | holding t0 => simp at h
    | finishing t0 => simp at h
    | exited => simp at h

/-- A worker entering the condition wait preserves the invariant. -/
theorem inv_sleep (c c' : Config) (i : Nat)
    (h : step (Label.sleep i) c = some c') (hc : Inv c) : Inv c' := by
  simp only [step] at h
  split at h
  case isTrue hg =>
    obtain ⟨hw, hsd, hcond⟩ := hg
    simp only [Option.some.injEq] at h
    subst h
    refine ⟨?_, hc.queueSorted, hc.queueLt, hc.popsSorted, hc.popsLt,
      hc.popsQueue, ?_, ?_, hc.runFinOrder, hc.drainNoRun, ?_, hc.doneQueue⟩
    · have hset : countWaiting (c.workers.set i (WStatus.waiting false))
          = countWaiting c.workers + 1 :=
        countP_set_ft isWaitingB c.workers i _ (WStatus.waiting false) hw rfl rfl
      have hx := hc.waitEq
      show c.waitingCount + 1 = countWaiting (c.workers.set i (WStatus.waiting false))
      omega
    · intro t
      have hset := countP_set_eq (holdsT t) c.workers i _ (WStatus.waiting false) hw rfl
      have hx := hc.ownership t
      simp only [holders] at hx ⊢
      rw [hset]
      exact hx
    · intro t
      have hset := countP_set_eq (ranT t) c.workers i _ (WStatus.waiting false) hw rfl
      have hx := hc.runEq t
      simp only [activeRunCount] at hx ⊢
      rw [hset]
      exact hx
    · intro hj
      have hj' : joinedPhase c.client = true := hj
      rw [joinedPhase_false_of_get c hc i _ hw (by simp)] at hj'
      cases hj'
  case isFalse => simp at h

/-- Appending one element to a list of naturals adjusts its count. -/
theorem count_append_singleton (l : List Nat) (a b : Nat) :
    (l ++ [a]).count b = l.count b + if a = b then 1 else 0 := by
  by_cases h : a = b <;> simp [List.count_append, List.count_cons, h]

/-- A successful GetTask pop preserves the invariant. -/
theorem inv_pop (c c' : Config) (i : Nat)
    (h : step (Label.pop i) c = some c') (hc : Inv c) : Inv c' := by
  simp only [step] at h
  split at h
  case isTrue hg =>
    obtain ⟨hw, hsd, hcap⟩ := hg
    cases hq : c.queue with
    | nil => rw [hq] at h; simp at h
    | cons t ts =>
      rw [hq] at h
      simp only [Option.some.injEq] at h
      subst h
      have hmemt : t ∈ c.queue := by rw [hq]; exact List.mem_cons_self t ts
      have hpair := hc.queueSorted
      rw [hq] at hpair
      have hpc := List.pairwise_cons.mp hpair
      refine ⟨?_, ?_, ?_, ?_, ?_, ?_, ?_, ?_, ?_, ?_, ?_, ?_⟩
      · have hset : countWaiting (c.workers.set i (WStatus.holding t))
            = countWaiting c.workers :=
          countP_set_eq isWaitingB c.workers i _ _ hw rfl
        show c.waitingCount = countWaiting (c.workers.set i (WStatus.holding t))
        rw [hset]
        exact hc.waitEq
      · exact hpc.2
      · intro x hx
        exact hc.queueLt x (by rw [hq]; exact List.mem_cons_of_mem _ hx)
      · show (popsOf (c.events ++ [Event.pop t true])).Pairwise (fun a b => a < b)
        rw [popsOf_append_pop, List.pairwise_append]
        refine ⟨hc.popsSorted, List.pairwise_singleton _ _, ?_⟩
        intro a ha b hb
        rw [List.mem_singleton] at hb
        rw [hb]
        exact hc.popsQueue a ha t hmemt
      · show ∀ y ∈ popsOf (c.events ++ [Event.pop t true]), y < c.nextId
        rw [popsOf_append_pop]
        intro y hy
        rw [List.mem_append, List.mem_singleton] at hy
        rcases hy with hy | rfl
        · exact hc.popsLt y hy
        · exact hc.queueLt _ hmemt
      · show ∀ y ∈ popsOf (c.events ++ [Event.pop t true]), ∀ x ∈ ts, y < x
        rw [popsOf_append_pop]
        intro y hy x hx
        rw [List.mem_append, List.mem_singleton] at hy
        rcases hy with hy | rfl
        · exact hc.popsQueue y hy x (by rw [hq]; exact List.mem_cons_of_mem _ hx)
        · exact hpc.1 x hx
      · intro s
        have hx := hc.ownership s
        simp only [holders, submittedInd] at hx ⊢
        rw [hq] at hx
        rw [finCount_append_pop]
        by_cases hst : t = s
        · have hsetw : (c.workers.set i (WStatus.holding t)).countP (holdsT s)
              = c.workers.countP (holdsT s) + 1 :=
            countP_set_ft (holdsT s) c.workers i _ _ hw rfl (by simp [holdsT, hst])
          have hcnt : (t :: ts).count s = ts.count s + 1 := by
            simp [List.count_cons, hst]
          rw [hcnt] at hx
          rw [hsetw]
          omega
        · have hsetw : (c.workers.set i (WStatus.holding t)).countP (holdsT s)
              = c.workers.countP (holdsT s) :=
            countP_set_eq (holdsT s) c.workers i _ _ hw
              (by simp [holdsT]; omega)
          have hcnt : (t :: ts).count s = ts.count s := by
            simp [List.count_cons, hst]
          rw [hcnt] at hx
          rw [hsetw]
          omega
      · intro s
        have hx := hc.runEq s
        have hsetw : (c.workers.set i (WStatus.holding t)).countP (ranT s)
            = c.workers.countP (ranT s) :=
          countP_set_eq (ranT s) c.workers i _ _ hw rfl
        simp only [activeRunCount] at hx ⊢
        rw [runCount_append_pop, finRanCount_append_pop, hsetw]
        exact hx
      · intro s hfr
        rw [finRanCount_append_pop] at hfr
        exact runThenFin_append _ _ _ (hc.runFinOrder s hfr)
      · intro s hfn
        rw [finNotRanCount_append_pop] at hfn
        rw [runCount_append_pop]
        exact hc.drainNoRun s hfn
      · intro hj
        have hj' : joinedPhase c.client = true := hj
        rw [joinedPhase_false_of_get c hc i _ hw (by simp)] at hj'
        cases hj'
      · intro hd
        have hd' : c.client = CStatus.cDone := hd
        have hx := hc.doneQueue hd'
        rw [hq] at hx
        simp at hx
  case isFalse => simp at h

/-- A worker entering Task::Run preserves the invariant. -/
theorem inv_beginRun (c c' : Config) (i : Nat)
    (h : step (Label.beginRun i) c = some c') (hc : Inv c) : Inv c' := by
  simp only [step] at h
  cases hw : c.workers.get? i with
  | none => rw [hw] at h; simp at h
  | some w =>
    rw [hw] at h
    cases w with
    | holding t0 =>
      simp only [Option.some.injEq] at h
      subst h
      refine ⟨?_, hc.queueSorted, hc.queueLt, ?_, ?_, ?_, ?_, ?_, ?_, ?_, ?_, ?_⟩
      · have hset : countWaiting (c.workers.set i (WStatus.running t0))
            = countWaiting c.workers :=
          countP_set_eq isWaitingB c.workers i _ _ hw rfl
        show c.waitingCount = countWaiting (c.workers.set i (WStatus.running t0))
        rw [hset]
        exact hc.waitEq
      · show (popsOf (c.events ++ [Event.run t0])).Pairwise (fun a b => a < b)
        rw [popsOf_append_run]
        exact hc.popsSorted
      · show ∀ y ∈ popsOf (c.events ++ [Event.run t0]), y < c.nextId
        rw [popsOf_append_run]
        exact hc.popsLt
      · show ∀ y ∈ popsOf (c.events ++ [Event.run t0]), ∀ x ∈ c.queue, y < x
        rw [popsOf_append_run]
        exact hc.popsQueue
      · intro s
        have hx := hc.ownership s
        have hsetw : (c.workers.set i (WStatus.running t0)).countP (holdsT s)
            = c.workers.countP (holdsT s) :=
          countP_set_eq (holdsT s) c.workers i _ _ hw rfl
        simp only [holders] at hx ⊢
        rw [finCount_append_run, hsetw]
        exact hx
      · intro s
        have hx := hc.runEq s
        simp only [activeRunCount] at hx ⊢
        rw [runCount_append_run, finRanCount_append_run]
        by_cases hst : t0 = s
        · have hsetw : (c.workers.set i (WStatus.running t0)).countP (ranT s)
              = c.workers.countP (ranT s) + 1 :=
            countP_set_ft (ranT s) c.workers i _ _ hw rfl (by simp [ranT, hst])
          rw [hsetw, if_pos hst]
          omega
        · have hsetw : (c.workers.set i (WStatus.running t0)).countP (ranT s)
              = c.workers.countP (ranT s) :=
            countP_set_eq (ranT s) c.workers i _ _ hw (by simp [ranT]; omega)
          rw [hsetw, if_neg hst]
          omega
      · intro s hfr
        rw [finRanCount_append_run] at hfr
        exact runThenFin_append _ _ _ (hc.runFinOrder s hfr)
      · intro s hfn
        rw [finNotRanCount_append_run] at hfn
        rw [runCount_append_run]
        by_cases hst : t0 = s
        · have hhold : 1 ≤ c.workers.countP (holdsT s) :=
            countP_pos_of_get _ _ i _ hw (by simp [holdsT, hst])
          have hown := hc.ownership s
          have hsplit := finCount_split c.events s
          have hsub : submittedInd c s ≤ 1 := by
            simp only [submittedInd]
            split <;> omega
          simp only [holders] at hown
          omega
        · simp [hst]
          exact hc.drainNoRun s hfn
      · intro hj
        have hj' : joinedPhase c.client = true := hj
        rw [joinedPhase_false_of_get c hc i _ hw (by simp)] at hj'
        cases hj'
      · exact hc.doneQueue
    | idle => simp at h
    | waiting b => simp at h
    | running t0 => simp at h
    | finishing t0 => simp at h
    | exited => simp at h

/-- A worker calling Task::Finalize preserves the invariant. -/
theorem inv_finalizeTask (c c' : Config) (i : Nat)
    (h : step (Label.finalizeTask i) c = some c') (hc : Inv c) : Inv c' := by
  simp only [step] at h
  cases hw : c.workers.get? i with
  | none => rw [hw] at h; simp at h
  | some w =>
    rw [hw] at h
    cases w with
    | finishing t0 =>
      simp only [Option.some.injEq] at h
      subst h
      refine ⟨?_, hc.queueSorted, hc.queueLt, ?_, ?_, ?_, ?_, ?_, ?_, ?_, ?_, ?_⟩
      · have hset : countWaiting (c.workers.set i WStatus.idle)
            = countWaiting c.workers :=
          countP_set_eq isWaitingB c.workers i _ _ hw rfl
        show c.waitingCount = countWaiting (c.workers.set i WStatus.idle)
        rw [hset]
        exact hc.waitEq
      · show (popsOf (c.events ++ [Event.fin t0 true])).Pairwise (fun a b => a < b)
        rw [popsOf_append_fin]
        exact hc.popsSorted
      · show ∀ y ∈ popsOf (c.events ++ [Event.fin t0 true]), y < c.nextId
        rw [popsOf_append_fin]
        exact hc.popsLt
      · show ∀ y ∈ popsOf (c.events ++ [Event.fin t0 true]), ∀ x ∈ c.queue, y < x
        rw [popsOf_append_fin]
        exact hc.popsQueue
      · intro s
        have hx := hc.ownership s
        simp only [holders, submittedInd] at hx ⊢
        rw [finCount_append_fin]
        by_cases hst : t0 = s
        · have hsetw : (c.workers.set i WStatus.idle).countP (holdsT s) + 1
              = c.workers.countP (holdsT s) :=
            countP_set_tf (holdsT s) c.workers i _ _ hw (by simp [holdsT, hst]) rfl
          rw [if_pos hst]
          omega
        · have hsetw : (c.workers.set i WStatus.idle).countP (holdsT s)
              = c.workers.countP (holdsT s) :=
            countP_set_eq (holdsT s) c.workers i _ _ hw
              (by simp [holdsT]; omega)
          rw [hsetw]
          simp only [if_neg hst]
          omega
      · intro s
        have hx := hc.runEq s
        simp only [activeRunCount] at hx ⊢
        rw [runCount_append_fin, finRanCount_append_fin]
        by_cases hst : t0 = s
        · have hsetw : (c.workers.set i WStatus.idle).countP (ranT s) + 1
              = c.workers.countP (ranT s) :=
            countP_set_tf (ranT s) c.workers i _ _ hw (by simp [ranT, hst]) rfl
          rw [if_pos (And.intro hst rfl)]
          omega
        · have hsetw : (c.workers.set i WStatus.idle).countP (ranT s)
              = c.workers.countP (ranT s) :=
            countP_set_eq (ranT s) c.workers i _ _ hw
              (by simp [ranT]; omega)
          rw [hsetw]
          rw [if_neg (show ¬ (t0 = s ∧ true = true) from fun hx2 => hst hx2.1)]
          omega
      · intro s hfr
        rw [finRanCount_append_fin] at hfr
        by_cases hst : t0 = s
        · have hran : 1 ≤ c.workers.countP (ranT s) :=
            countP_pos_of_get _ _ i _ hw (by simp [ranT, hst])
          have hrun := hc.runEq s
          simp only [activeRunCount] at hrun
          have hmem : Event.run s ∈ c.events :=
            run_mem_of_runCount_pos c.events s (by omega)
          show RunThenFin (c.events ++ [Event.fin t0 true]) s
          rw [hst]
          exact runThenFin_of_mem_run c.events s hmem
        · rw [if_neg (show ¬ (t0 = s ∧ true = true) from fun hx2 => hst hx2.1)] at hfr
          simp at hfr
          exact runThenFin_append _ _ _ (hc.runFinOrder s hfr)
      · intro s hfn
        rw [finNotRanCount_append_fin] at hfn
        rw [if_neg (by simp)] at hfn
        simp at hfn
        rw [runCount_append_fin]
        exact hc.drainNoRun s hfn
      · intro hj
        have hj' : joinedPhase c.client = true := hj
        rw [joinedPhase_false_of_get c hc i _ hw (by simp)] at hj'
        cases hj'
      · exact hc.doneQueue
    | idle => simp at h
    | waiting b => simp at h
    | holding t0 => simp at h
    | running t0 => simp at h
    | exited => simp at h

/-- Appending the fresh task id keeps the queue sorted. -/
theorem queue_append_sorted (c : Config) (hc : Inv c) :
    (c.queue ++ [c.nextId]).Pairwise (fun a b => a < b) := by
  rw [List.pairwise_append]
  refine ⟨hc.queueSorted, List.pairwise_singleton _ _, ?_⟩
  intro a ha b hb
  rw [List.mem_singleton] at hb
  rw [hb]
  exact hc.queueLt a ha

/-- Appending the fresh task id keeps all queued ids below the next one. -/
theorem queue_append_lt (c : Config) (hc : Inv c) :
    ∀ x ∈ c.queue ++ [c.nextId], x < c.nextId + 1 := by
  intro x hx
  rw [List.mem_append, List.mem_singleton] at hx
  rcases hx with hx | hx
  · exact Nat.lt_succ_of_lt (hc.queueLt x hx)
  · rw [hx]; exact Nat.lt_succ_self _

/-- Appending the fresh task id keeps dequeued ids below all queued ids. -/
theorem pops_append_queue (c : Config) (hc : Inv c) :
    ∀ y ∈ popsOf c.events, ∀ x ∈ c.queue ++ [c.nextId], y < x := by
  intro y hy x hx
  rw [List.mem_append, List.mem_singleton] at hx
  rcases hx with hx | hx
  · exact hc.popsQueue y hy x hx
  · rw [hx]; exact hc.popsLt y hy

/-- Appending the fresh task id preserves the ownership balance. -/
theorem own_append (c : Config) (hc : Inv c) :
    ∀ s, (c.queue ++ [c.nextId]).count s
      + c.workers.countP (holdsT s)
      + (if clientHoldsT s c.client = true then 1 else 0)
      + finCount c.events s
      = if s < c.nextId + 1 then 1 else 0 := by
  intro s
  have hx := hc.ownership s
  simp only [holders, submittedInd] at hx
  rw [count_append_singleton]
  by_cases hs : c.nextId = s
  · rw [if_pos hs]
    rw [if_neg (show ¬ s < c.nextId by omega)] at hx
    rw [if_pos (show s < c.nextId + 1 by omega)]
    omega
  · rw [if_neg hs]
    have hiff : (if s < c.nextId + 1 then 1 else 0)
        = (if s < c.nextId then (1 : Nat) else 0) := by
      by_cases h2 : s < c.nextId
      · rw [if_pos h2, if_pos (by omega)]
      · rw [if_neg h2, if_neg (by omega)]
    rw [hiff]
    omega

/-- AddTask preserves the invariant. -/
theorem inv_addTask (c c' : Config) (sig : Option Nat)
    (h : step (Label.addTask sig) c = some c') (hc : Inv c) : Inv c' := by
  cases sig with
  | none =>
    simp only [step] at h
    split at h
    case isTrue hg =>
      simp only [Option.some.injEq] at h
      subst h
      refine ⟨hc.waitEq, queue_append_sorted c hc, queue_append_lt c hc,
        hc.popsSorted, ?_, pops_append_queue c hc, ?_, hc.runEq,
        hc.runFinOrder, hc.drainNoRun, ?_, ?_⟩
      · intro y hy
        exact Nat.lt_succ_of_lt (hc.popsLt y hy)
      · intro s
        have := own_append c hc s
        simp only [holders, submittedInd]
        exact this
      · intro hj
        have hj' : joinedPhase c.client = true := hj
        rw [joinedPhase_false_of_preDestroy _ hg] at hj'
        cases hj'
      · intro hd
        have hd' : c.client = CStatus.cDone := hd
        exact absurd hd' (ne_cDone_of_preDestroy _ hg)
    case isFalse => simp at h
  | some i =>
    simp only [step] at h
    split at h
    case isTrue hg =>
      split at h
      case isTrue hg2 =>
        obtain ⟨hst2, hw⟩ := hg2
        simp only [Option.some.injEq] at h
        subst h
        refine ⟨?_, queue_append_sorted c hc, queue_append_lt c hc,
          hc.popsSorted, ?_, pops_append_queue c hc, ?_, ?_,
          hc.runFinOrder, hc.drainNoRun, ?_, ?_⟩
        · have hset : countWaiting (c.workers.set i (WStatus.waiting true))
              = countWaiting c.workers :=
            countP_set_eq isWaitingB c.workers i _ _ hw rfl
          show c.waitingCount = countWaiting (c.workers.set i (WStatus.waiting true))
          rw [hset]
          exact hc.waitEq
        · intro y hy
          exact Nat.lt_succ_of_lt (hc.popsLt y hy)
        · intro s
          have hx := own_append c hc s
          have hsetw : (c.workers.set i (WStatus.waiting true)).countP (holdsT s)
              = c.workers.countP (holdsT s) :=
            countP_set_eq (holdsT s) c.workers i _ _ hw rfl
          simp only [holders, submittedInd]
          rw [hsetw]
          exact hx
        · intro s
          have hx := hc.runEq s
          have hsetw : (c.workers.set i (WStatus.waiting true)).countP (ranT s)
              = c.workers.countP (ranT s) :=
            countP_set_eq (ranT s) c.workers i _ _ hw rfl
          simp only [activeRunCount] at hx ⊢
          rw [hsetw]
          exact hx
        · intro hj
          have hj' : joinedPhase c.client = true := hj
          rw [joinedPhase_false_of_preDestroy _ hg] at hj'
          cases hj'
        · intro hd
          have hd' : c.client = CStatus.cDone := hd
          exact absurd hd' (ne_cDone_of_preDestroy _ hg)
      case isFalse => simp at h
    case isFalse => simp at h

/-- A TryGetTask pop by the Wait drain preserves the invariant. -/
theorem inv_cTryPop (c c' : Config)
    (h : step Label.cTryPop c = some c') (hc : Inv c) : Inv c' := by
  simp only [step] at h
  split at h
  case isTrue hcl =>
    cases hq : c.queue with
    | nil => rw [hq] at h; simp at h
    | cons t ts =>
      rw [hq] at h
      simp only [Option.some.injEq] at h
      subst h
      have hmemt : t ∈ c.queue := by rw [hq]; exact List.mem_cons_self t ts
      have hpair := hc.queueSorted
      rw [hq] at hpair
      have hpc := List.pairwise_cons.mp hpair
      refine ⟨hc.waitEq, hpc.2, ?_, ?_, ?_, ?_, ?_, ?_, ?_, ?_, ?_, ?_⟩
      · intro x hx
        exact hc.queueLt x (by rw [hq]; exact List.mem_cons_of_mem _ hx)
      · show (popsOf (c.events ++ [Event.pop t false])).Pairwise (fun a b => a < b)
        rw [popsOf_append_pop, List.pairwise_append]
        refine ⟨hc.popsSorted, List.pairwise_singleton _ _, ?_⟩
        intro a ha b hb
        rw [List.mem_singleton] at hb
        rw [hb]
        exact hc.popsQueue a ha t hmemt
      · show ∀ y ∈ popsOf (c.events ++ [Event.pop t false]), y < c.nextId
        rw [popsOf_append_pop]
        intro y hy
        rw [List.mem_append, List.mem_singleton] at hy
        rcases hy with hy | rfl
        · exact hc.popsLt y hy
        · exact hc.queueLt _ hmemt
      · show ∀ y ∈ popsOf (c.events ++ [Event.pop t false]), ∀ x ∈ ts, y < x
        rw [popsOf_append_pop]
        intro y hy x hx
        rw [List.mem_append, List.mem_singleton] at hy
        rcases hy with hy | rfl
        · exact hc.popsQueue y hy x (by rw [hq]; exact List.mem_cons_of_mem _ hx)
        · exact hpc.1 x hx
      · intro s
        have hx := hc.ownership s
        simp only [holders, submittedInd] at hx ⊢
        rw [hcl, hq] at hx
        rw [finCount_append_pop]
        have hcl1 : (if clientHoldsT s CStatus.cIdle = true then 1 else 0) = 0 := by
          simp [clientHoldsT]
        rw [hcl1] at hx
        by_cases hst : t = s
        · have hcnt : (t :: ts).count s = ts.count s + 1 := by
            simp [List.count_cons, hst]
          have hcl2 : (if clientHoldsT s (CStatus.cHold t) = true then 1 else 0) = 1 := by
            simp [clientHoldsT, hst]
          rw [hcnt] at hx
          rw [hcl2]
          omega
        · have hcnt : (t :: ts).count s = ts.count s := by
            simp [List.count_cons, hst]
          have hcl2 : (if clientHoldsT s (CStatus.cHold t) = true then 1 else 0) = 0 := by
            simp [clientHoldsT, hst]
          rw [hcnt] at hx
          rw [hcl2]
          omega
      · intro s
        have hx := hc.runEq s
        simp only [activeRunCount] at hx ⊢
        rw [hcl] at hx
        rw [runCount_append_pop, finRanCount_append_pop]
        have h1 : (if clientRanT s CStatus.cIdle = true then 1 else 0) = 0 := by
          simp [clientRanT]
        have h2 : (if clientRanT s (CStatus.cHold t) = true then 1 else 0) = 0 := by
          simp [clientRanT]
        rw [h1] at hx
        rw [h2]
        omega
      · intro s hfr
        rw [finRanCount_append_pop] at hfr
        exact runThenFin_append _ _ _ (hc.runFinOrder s hfr)
      · intro s hfn
        rw [finNotRanCount_append_pop] at hfn
        rw [runCount_append_pop]
        exact hc.drainNoRun s hfn
      · intro hj
        have hj' : joinedPhase (CStatus.cHold t) = true := hj
        simp [joinedPhase] at hj'
      · intro hd
        have hd' : CStatus.cHold t = CStatus.cDone := hd
        simp at hd'
  case isFalse => simp at h

/-- The Wait drain entering Task::Run preserves the invariant. -/
theorem inv_cBeginRun (c c' : Config)
    (h : step Label.cBeginRun c = some c') (hc : Inv c) : Inv c' := by
  simp only [step] at h
  cases hcl : c.client with
  | cHold t0 =>
    rw [hcl] at h
    simp only [Option.some.injEq] at h
    subst h
    refine ⟨hc.waitEq, hc.queueSorted, hc.queueLt, ?_, ?_, ?_, ?_, ?_, ?_, ?_, ?_, ?_⟩
    · show (popsOf (c.events ++ [Event.run t0])).Pairwise (fun a b => a < b)
      rw [popsOf_append_run]
      exact hc.popsSorted
    · show ∀ y ∈ popsOf (c.events ++ [Event.run t0]), y < c.nextId
      rw [popsOf_append_run]
      exact hc.popsLt
    · show ∀ y ∈ popsOf (c.events ++ [Event.run t0]), ∀ x ∈ c.queue, y < x
      rw [popsOf_append_run]
      exact hc.popsQueue
    · intro s
      have hx := hc.ownership s
      simp only [holders, submittedInd] at hx ⊢
      rw [hcl] at hx
      rw [finCount_append_run]
      exact hx
    · intro s
      have hx := hc.runEq s
      simp only [activeRunCount] at hx ⊢
      rw [hcl] at hx
      rw [runCount_append_run, finRanCount_append_run]
      have h1 : (if clientRanT s (CStatus.cHold t0) = true then 1 else 0) = 0 := by
        simp [clientRanT]
      rw [h1] at hx
      by_cases hst : t0 = s
      · have h2 : (if clientRanT s (CStatus.cRun t0) = true then 1 else 0) = 1 := by
          simp [clientRanT, hst]
        rw [h2, if_pos hst]
        omega
      · have h2 : (if clientRanT s (CStatus.cRun t0) = true then 1 else 0) = 0 := by
          simp [clientRanT, hst]
        rw [h2, if_neg hst]
        omega
    · intro s hfr
      rw [finRanCount_append_run] at hfr
      exact runThenFin_append _ _ _ (hc.runFinOrder s hfr)
    · intro s hfn
      rw [finNotRanCount_append_run] at hfn
      rw [runCount_append_run]
      by_cases hst : t0 = s
      · have hown := hc.ownership s
        simp only [holders] at hown
        rw [hcl] at hown
        have hclh : (if clientHoldsT s (CStatus.cHold t0) = true then 1 else 0) = 1 := by
          simp [clientHoldsT, hst]
        rw [hclh] at hown
        have hsplit := finCount_split c.events s
        have hsub : submittedInd c s ≤ 1 := by
          simp only [submittedInd]
          split <;> omega
        omega
      · rw [if_neg hst]
        have := hc.drainNoRun s hfn
        omega
    · intro hj
      have hj' : joinedPhase (CStatus.cRun t0) = true := hj
      simp [joinedPhase] at hj'
    · intro hd
      have hd' : CStatus.cRun t0 = CStatus.cDone := hd
      simp at hd'
  | cIdle => rw [hcl] at h; simp at h
  | cRun t0 => rw [hcl] at h; simp at h
  | cFin t0 => rw [hcl] at h; simp at h
  | cShut => rw [hcl] at h; simp at h
  | cJoined => rw [hcl] at h; simp at h
  | cDrainHold t0 => rw [hcl] at h; simp at h
  | cDone => rw [hcl] at h; simp at h

/-- The Wait drain returning from Task::Run preserves the invariant. -/
theorem inv_cEndRun (c c' : Config)
    (h : step Label.cEndRun c = some c') (hc : Inv c) : Inv c' := by
  simp only [step] at h
  cases hcl : c.client with
  | cRun t0 =>
    rw [hcl] at h
    simp only [Option.some.injEq] at h
    subst h
    refine ⟨hc.waitEq, hc.queueSorted, hc.queueLt, hc.popsSorted, hc.popsLt,
      hc.popsQueue, ?_, ?_, hc.runFinOrder, hc.drainNoRun, ?_, ?_⟩
    · intro s
      have hx := hc.ownership s
      simp only [holders, submittedInd] at hx ⊢
      rw [hcl] at hx
      exact hx
    · intro s
      have hx := hc.runEq s
      simp only [activeRunCount] at hx ⊢
      rw [hcl] at hx
      exact hx
    · intro hj
      have hj' : joinedPhase (CStatus.cFin t0) = true := hj
      simp [joinedPhase] at hj'
    · intro hd
      have hd' : CStatus.cFin t0 = CStatus.cDone := hd
      simp at hd'
  | cIdle => rw [hcl] at h; simp at h
  | cHold t0 => rw [hcl] at h; simp at h
  | cFin t0 => rw [hcl] at h; simp at h
  | cShut => rw [hcl] at h; simp at h
  | cJoined => rw [hcl] at h; simp at h
  | cDrainHold t0 => rw [hcl] at h; simp at h
  | cDone => rw [hcl] at h; simp at h

/-- The Wait drain calling Task::Finalize preserves the invariant. -/
theorem inv_cFinalize (c c' : Config)
    (h : step Label.cFinalize c = some c') (hc : Inv c) : Inv c' := by
  simp only [step] at h
  cases hcl : c.client with
  | cFin t0 =>
    rw [hcl] at h
    simp only [Option.some.injEq] at h
    subst h
    refine ⟨hc.waitEq, hc.queueSorted, hc.queueLt, ?_, ?_, ?_, ?_, ?_, ?_, ?_, ?_, ?_⟩
    · show (popsOf (c.events ++ [Event.fin t0 true])).Pairwise (fun a b => a < b)
      rw [popsOf_append_fin]
      exact hc.popsSorted
    · show ∀ y ∈ popsOf (c.events ++ [Event.fin t0 true]), y < c.nextId
      rw [popsOf_append_fin]
      exact hc.popsLt
    · show ∀ y ∈ popsOf (c.events ++ [Event.fin t0 true]), ∀ x ∈ c.queue, y < x
      rw [popsOf_append_fin]
      exact hc.popsQueue
    · intro s
      have hx := hc.ownership s
      simp only [holders, submittedInd] at hx ⊢
      rw [hcl] at hx
      rw [finCount_append_fin]
      have hcl2 : (if clientHoldsT s CStatus.cIdle = true then 1 else 0) = 0 := by
        simp [clientHoldsT]
      rw [hcl2]
      by_cases hst : t0 = s
      · have hcl1 : (if clientHoldsT s (CStatus.cFin t0) = true then 1 else 0) = 1 := by
          simp [clientHoldsT, hst]
        rw [hcl1] at hx
        rw [if_pos hst]
        omega
      · have hcl1 : (if clientHoldsT s (CStatus.cFin t0) = true then 1 else 0) = 0 := by
          simp [clientHoldsT, hst]
        rw [hcl1] at hx
        rw [if_neg hst]
        omega
    · intro s
      have hx := hc.runEq s
      simp only [activeRunCount] at hx ⊢
      rw [hcl] at hx
      rw [runCount_append_fin, finRanCount_append_fin]
      have h2 : (if clientRanT s CStatus.cIdle = true then 1 else 0) = 0 := by
        simp [clientRanT]
      rw [h2]
      by_cases hst : t0 = s
      · have h1 : (if clientRanT s (CStatus.cFin t0) = true then 1 else 0) = 1 := by
          simp [clientRanT, hst]
        rw [h1] at hx
        rw [if_pos (And.intro hst rfl)]
        omega
      · have h1 : (if clientRanT s (CStatus.cFin t0) = true then 1 else 0) = 0 := by
          simp [clientRanT, hst]
        rw [h1] at hx
        rw [if_neg (show ¬ (t0 = s ∧ true = true) from fun hx2 => hst hx2.1)]
        omega
    · intro s hfr
      rw [finRanCount_append_fin] at hfr
      by_cases hst : t0 = s
      · have hrun := hc.runEq s
        simp only [activeRunCount] at hrun
        rw [hcl] at hrun
        have h1 : (if clientRanT s (CStatus.cFin t0) = true then 1 else 0) = 1 := by
          simp [clientRanT, hst]
        rw [h1] at hrun
        have hmem : Event.run s ∈ c.events :=
          run_mem_of_runCount_pos c.events s (by omega)
        show RunThenFin (c.events ++ [Event.fin t0 true]) s
        rw [hst]
        exact runThenFin_of_mem_run c.events s hmem
      · rw [if_neg (show ¬ (t0 = s ∧ true = true) from fun hx2 => hst hx2.1)] at hfr
        simp at hfr
        exact runThenFin_append _ _ _ (hc.runFinOrder s hfr)
    · intro s hfn
      rw [finNotRanCount_append_fin] at hfn
      rw [if_neg (by simp)] at hfn
      simp at hfn
      rw [runCount_append_fin]
      exact hc.drainNoRun s hfn
    · intro hj
      have hj' : joinedPhase CStatus.cIdle = true := hj
      simp [joinedPhase] at hj'
    · intro hd
      have hd' : CStatus.cIdle = CStatus.cDone := hd
      simp at hd'
  | cIdle => rw [hcl] at h; simp at h
  | cHold t0 => rw [hcl] at h; simp at h
  | cRun t0 => rw [hcl] at h; simp at h
  | cShut => rw [hcl] at h; simp at h
  | cJoined => rw [hcl] at h; simp at h
  | cDrainHold t0 => rw [hcl] at h; simp at h
  | cDone => rw [hcl] at h; simp at h

/-- A RemoveAllTasks pop preserves the invariant. -/
theorem inv_cDrainPop (c c' : Config)
    (h : step Label.cDrainPop c = some c') (hc : Inv c) : Inv c' := by
  simp only [step] at h
  split at h
  case isTrue hcl =>
    cases hq : c.queue with
    | nil => rw [hq] at h; simp at h
    | cons t ts =>
      rw [hq] at h
      simp only [Option.some.injEq] at h
      subst h
      have hmemt : t ∈ c.queue := by rw [hq]; exact List.mem_cons_self t ts
      have hpair := hc.queueSorted
      rw [hq] at hpair
      have hpc := List.pairwise_cons.mp hpair
      refine ⟨hc.waitEq, hpc.2, ?_, ?_, ?_, ?_, ?_, ?_, ?_, ?_, ?_, ?_⟩
      · intro x hx
        exact hc.queueLt x (by rw [hq]; exact List.mem_cons_of_mem _ hx)
      · show (popsOf (c.events ++ [Event.pop t false])).Pairwise (fun a b => a < b)
        rw [popsOf_append_pop, List.pairwise_append]
        refine ⟨hc.popsSorted, List.pairwise_singleton _ _, ?_⟩
        intro a ha b hb
        rw [List.mem_singleton] at hb
        rw [hb]
        exact hc.popsQueue a ha t hmemt
      · show ∀ y ∈ popsOf (c.events ++ [Event.pop t false]), y < c.nextId
        rw [popsOf_append_pop]
        intro y hy
        rw [List.mem_append, List.mem_singleton] at hy
        rcases hy with hy | rfl
        · exact hc.popsLt y hy
        · exact hc.queueLt _ hmemt
      · show ∀ y ∈ popsOf (c.events ++ [Event.pop t false]), ∀ x ∈ ts, y < x
        rw [popsOf_append_pop]
        intro y hy x hx
        rw [List.mem_append, List.mem_singleton] at hy
        rcases hy with hy | rfl
        · exact hc.popsQueue y hy x (by rw [hq]; exact List.mem_cons_of_mem _ hx)
        · exact hpc.1 x hx
      · intro s
        have hx := hc.ownership s
        simp only [holders, submittedInd] at hx ⊢
        rw [hcl, hq] at hx
        rw [finCount_append_pop]
        have hcl1 : (if clientHoldsT s CStatus.cJoined = true then 1 else 0) = 0 := by
          simp [clientHoldsT]
        rw [hcl1] at hx
        by_cases hst : t = s
        · have hcnt : (t :: ts).count s = ts.count s + 1 := by
            simp [List.count_cons, hst]
          have hcl2 : (if clientHoldsT s (CStatus.cDrainHold t) = true then 1 else 0) = 1 := by
            simp [clientHoldsT, hst]
          rw [hcnt] at hx
          rw [hcl2]
          omega
        · have hcnt : (t :: ts).count s = ts.count s := by
            simp [List.count_cons, hst]
          have hcl2 : (if clientHoldsT s (CStatus.cDrainHold t) = true then 1 else 0) = 0 := by
            simp [clientHoldsT, hst]
          rw [hcnt] at hx
          rw [hcl2]
          omega
      · intro s
        have hx := hc.runEq s
        simp only [activeRunCount] at hx ⊢
        rw [hcl] at hx
        rw [runCount_append_pop, finRanCount_append_pop]
        have h1 : (if clientRanT s CStatus.cJoined = true then 1 else 0) = 0 := by
          simp [clientRanT]
        have h2 : (if clientRanT s (CStatus.cDrainHold t) = true then 1 else 0) = 0 := by
          simp [clientRanT]
        rw [h1] at hx
        rw [h2]
        omega
      · intro s hfr
        rw [finRanCount_append_pop] at hfr
        exact runThenFin_append _ _ _ (hc.runFinOrder s hfr)
      · intro s hfn
        rw [finNotRanCount_append_pop] at hfn
        rw [runCount_append_pop]
        exact hc.drainNoRun s hfn
      · intro _ w hwmem
        exact hc.joinedExited (by rw [hcl]; rfl) w hwmem
      · intro hd
        have hd' : CStatus.cDrainHold t = CStatus.cDone := hd
        simp at hd'
  case isFalse => simp at h

/-- A RemoveAllTasks Finalize preserves the invariant. -/
theorem inv_cDrainFin (c c' : Config)
    (h : step Label.cDrainFin c = some c') (hc : Inv c) : Inv c' := by
  simp only [step] at h
  cases hcl : c.client with
  | cDrainHold t0 =>
    rw [hcl] at h
    simp only [Option.some.injEq] at h
    subst h
    refine ⟨hc.waitEq, hc.queueSorted, hc.queueLt, ?_, ?_, ?_, ?_, ?_, ?_, ?_, ?_, ?_⟩
    · show (popsOf (c.events ++ [Event.fin t0 false])).Pairwise (fun a b => a < b)
      rw [popsOf_append_fin]
      exact hc.popsSorted
    · show ∀ y ∈ popsOf (c.events ++ [Event.fin t0 false]), y < c.nextId
      rw [popsOf_append_fin]
      exact hc.popsLt
    · show ∀ y ∈ popsOf (c.events ++ [Event.fin t0 false]), ∀ x ∈ c.queue, y < x
      rw [popsOf_append_fin]
      exact hc.popsQueue
    · intro s
      have hx := hc.ownership s
      simp only [holders, submittedInd] at hx ⊢
      rw [hcl] at hx
      rw [finCount_append_fin]
      have hcl2 : (if clientHoldsT s CStatus.cJoined = true then 1 else 0) = 0 := by
        simp [clientHoldsT]
      rw [hcl2]
      by_cases hst : t0 = s
      · have hcl1 : (if clientHoldsT s (CStatus.cDrainHold t0) = true then 1 else 0) = 1 := by
          simp [clientHoldsT, hst]
        rw [hcl1] at hx
        rw [if_pos hst]
        omega
      · have hcl1 : (if clientHoldsT s (CStatus.cDrainHold t0) = true then 1 else 0) = 0 := by
          simp [clientHoldsT, hst]
        rw [hcl1] at hx
        rw [if_neg hst]
        omega
    · intro s
      have hx := hc.runEq s
      simp only [activeRunCount] at hx ⊢
      rw [hcl] at hx
      rw [runCount_append_fin, finRanCount_append_fin]
      have h1 : (if clientRanT s (CStatus.cDrainHold t0) = true then 1 else 0) = 0 := by
        simp [clientRanT]
      have h2 : (if clientRanT s CStatus.cJoined = true then 1 else 0) = 0 := by
        simp [clientRanT]
      rw [h1] at hx
      rw [h2]
      rw [if_neg (by simp)]
      omega
    · intro s hfr
      rw [finRanCount_append_fin] at hfr
      rw [if_neg (by simp)] at hfr
      simp at hfr
      exact runThenFin_append _ _ _ (hc.runFinOrder s hfr)
    · intro s hfn
      rw [finNotRanCount_append_fin] at hfn
      rw [runCount_append_fin]
      by_cases hst : t0 = s
      · have hex := hc.joinedExited (by rw [hcl]; rfl)
        have hwz : c.workers.countP (ranT s) = 0 := by
          rw [List.countP_eq_zero]
          intro w hwm
          rw [hex w hwm]
          simp [ranT]
        have hrun := hc.runEq s
        simp only [activeRunCount] at hrun
        rw [hcl] at hrun
        have h1 : (if clientRanT s (CStatus.cDrainHold t0) = true then 1 else 0) = 0 := by
          simp [clientRanT]
        rw [h1, hwz] at hrun
        have hown := hc.ownership s
        simp only [holders] at hown
        rw [hcl] at hown
        have hcl1 : (if clientHoldsT s (CStatus.cDrainHold t0) = true then 1 else 0) = 1 := by
          simp [clientHoldsT, hst]
        rw [hcl1] at hown
        have hsplit := finCount_split c.events s
        have hsub : submittedInd c s ≤ 1 := by
          simp only [submittedInd]
          split <;> omega
        omega
      · rw [if_neg (show ¬ (t0 = s ∧ false = false) from fun hx2 => hst hx2.1)] at hfn
        simp at hfn
        exact hc.drainNoRun s hfn
    · intro _ w hwmem
      exact hc.joinedExited (by rw [hcl]; rfl) w hwmem
    · intro hd
      have hd' : CStatus.cJoined = CStatus.cDone := hd
      simp at hd'
  | cIdle => rw [hcl] at h; simp at h
  | cHold t0 => rw [hcl] at h; simp at h
  | cRun t0 => rw [hcl] at h; simp at h
  | cFin t0 => rw [hcl] at h; simp at h
  | cShut => rw [hcl] at h; simp at h
  | cJoined => rw [hcl] at h; simp at h
  | cDone => rw [hcl] at h; simp at h

/-- RemoveAllTasks returning on the empty queue preserves the invariant. -/
theorem inv_cFinishDrain (c c' : Config)
    (h : step Label.cFinishDrain c = some c') (hc : Inv c) : Inv c' := by
  simp only [step] at h
  split at h
  case isTrue hg =>
    obtain ⟨hcl, hqe⟩ := hg
    simp only [Option.some.injEq] at h
    subst h
    refine ⟨hc.waitEq, hc.queueSorted, hc.queueLt, hc.popsSorted, hc.popsLt,
      hc.popsQueue, ?_, ?_, hc.runFinOrder, hc.drainNoRun, ?_, ?_⟩
    · intro s
      have hx := hc.ownership s
      simp only [holders, submittedInd] at hx ⊢
      rw [hcl] at hx
      exact hx
    · intro s
      have hx := hc.runEq s
      simp only [activeRunCount] at hx ⊢
      rw [hcl] at hx
      exact hx
    · intro _ w hwmem
      exact hc.joinedExited (by rw [hcl]; rfl) w hwmem
    · intro _
      exact hqe
  case isFalse => simp at h

/-- Every step of the model preserves the invariant. -/
theorem inv_step (l : Label) (c c' : Config)
    (h : step l c = some c') (hc : Inv c) : Inv c' := by
  cases l with
  | addTask sig => exact inv_addTask c c' sig h hc
  | startWorkers => exact inv_startWorkers c c' h hc
  | stopWorkers => exact inv_stopWorkers c c' h hc
  | setMax m => exact inv_setMax c c' m h hc
  | pop i => exact inv_pop c c' i h hc
  | sleep i => exact inv_sleep c c' i h hc
  | wake i => exact inv_wake c c' i h hc
  | beginRun i => exact inv_beginRun c c' i h hc
  | endRun i => exact inv_endRun c c' i h hc
  | finalizeTask i => exact inv_finalizeTask c c' i h hc
  | exitWorker i => exact inv_exitWorker c c' i h hc
  | cTryPop => exact inv_cTryPop c c' h hc
  | cBeginRun => exact inv_cBeginRun c c' h hc
  | cEndRun => exact inv_cEndRun c c' h hc
  | cFinalize => exact inv_cFinalize c c' h hc
  | cDelete => exact inv_cDelete c c' h hc
  | cJoin => exact inv_cJoin c c' h hc
  | cDrainPop => exact inv_cDrainPop c c' h hc
  | cDrainFin => exact inv_cDrainFin c c' h hc
  | cFinishDrain => exact inv_cFinishDrain c c' h hc
  | wEnter => exact inv_wEnter c c' h hc
  | wWake => exact inv_wWake c c' h hc

/-- The invariant holds in every state reached by a trace. -/
theorem inv_runTrace (tr : List Label) (c c' : Config)
    (h : runTrace tr c = some c') (hc : Inv c) : Inv c' := by
  induction tr generalizing c with
  | nil =>
    simp only [runTrace, Option.some.injEq] at h
    rw [← h]
    exact hc
  | cons l tr ih =>
    simp only [runTrace] at h
    cases hs : step l c with
    | none => rw [hs] at h; simp at h
    | some c1 =>
      rw [hs] at h
      exact ih c1 h (inv_step l c c1 hs hc)

/-- The invariant holds in every state reachable from the initial pool. -/
theorem inv_reachable (n : Nat) (tr : List Label) (c : Config)
    (h : runTrace tr (initConfig n) = some c) : Inv c :=
  inv_runTrace tr (initConfig n) c h (inv_init n)

/-- Guard and effect of a successful GetTask pop. -/
theorem pop_guard (c c2 : Config) (i : Nat)
    (h : step (Label.pop i) c = some c2) :
    c.workers.get? i = some WStatus.idle ∧ c.shuttingDown = false ∧
    c.workers.length - c.waitingCount ≤ c.maxActive ∧
    ∃ t ts, c.queue = t :: ts ∧ c2.queue = ts ∧
      c2.events = c.events ++ [Event.pop t true] ∧
      c2.workers = c.workers.set i (WStatus.holding t) := by
  simp only [step] at h
  split at h
  case isTrue hg =>
    obtain ⟨hw, hsd, hcap⟩ := hg
    cases hq : c.queue with
    | nil => rw [hq] at h; simp at h
    | cons t ts =>
      rw [hq] at h
      simp only [Option.some.injEq] at h
      subst h
      exact ⟨hw, hsd, hcap, t, ts, rfl, rfl, rfl, rfl⟩
  case isFalse => simp at h

/-- Soft admission cap: the dequeued-or-running workers never exceed the
current max_active_workers_. -/
def capGood (c : Config) : Prop := countHoldRun c.workers ≤ c.maxActive

/-- Any step other than SetMaxActiveWorkers keeps max_active_workers_. -/
theorem step_maxActive (l : Label) (c c' : Config)
    (h : step l c = some c') (hns : ∀ k, l ≠ Label.setMax k) :
    c'.maxActive = c.maxActive := by
  cases l with
  | setMax k => exact absurd rfl (hns k)
  | _ =>
    simp only [step] at h
    repeat' split at h
    all_goals try simp only [Option.some.injEq] at h
    all_goals first
      | (subst h; rfl)
      | simp at h

/-- Worker roster size is constant along every step. -/
theorem step_workers_length (l : Label) (c c' : Config)
    (h : step l c = some c') : c'.workers.length = c.workers.length := by
  cases l <;>
    (simp only [step] at h
     repeat' split at h
     all_goals try simp only [Option.some.injEq] at h
     all_goals first
       | (subst h; simp [wakeAll_length, List.length_set])
       | simp at h)

/-- Every step other than SetMaxActiveWorkers preserves the cap bound. -/
theorem cap_step (l : Label) (c c' : Config)
    (h : step l c = some c') (hc : Inv c) (hcap : capGood c)
    (hns : ∀ k, l ≠ Label.setMax k) : capGood c' := by
  have hmax : c'.maxActive = c.maxActive := step_maxActive l c c' h hns
  cases l with
  | setMax k => exact absurd rfl (hns k)
  | pop i =>
    obtain ⟨hw, hsd, hcap2, t, ts, hq, hq2, hev, hww⟩ := pop_guard c c' i h
    have hset : (c.workers.set i (WStatus.holding t)).countP isHoldRunB
        = c.workers.countP isHoldRunB + 1 :=
      countP_set_ft isHoldRunB c.workers i _ _ hw rfl rfl
    have hpart := workers_partition c.workers
    have hhr := countHoldRun_le_countHRF c.workers
    have hidle : 1 ≤ countIdle c.workers :=
      countP_pos_of_get isIdleB c.workers i _ hw rfl
    have hwle : countWaiting c.workers ≤ c.workers.length :=
      List.countP_le_length _
    have hwc := hc.waitEq
    show countHoldRun c'.workers ≤ c'.maxActive
    rw [hww, hmax]
    show (c.workers.set i (WStatus.holding t)).countP isHoldRunB ≤ c.maxActive
    rw [hset]
    simp only [countHoldRun, countIdle, countWaiting, countHRF, countExited] at *
    omega
  | beginRun i =>
    simp only [step] at h
    cases hw : c.workers.get? i with
    | none => rw [hw] at h; simp at h
    | some w =>
      rw [hw] at h
      cases w with
      | holding t0 =>
        simp only [Option.some.injEq] at h
        have hset : (c.workers.set i (WStatus.running t0)).countP isHoldRunB
            = c.workers.countP isHoldRunB :=
          countP_set_eq isHoldRunB c.workers i _ _ hw rfl
        show countHoldRun c'.workers ≤ c'.maxActive
        rw [hmax, ← h]
        show (c.workers.set i (WStatus.running t0)).countP isHoldRunB ≤ c.maxActive
        rw [hset]
        exact hcap
      | idle => simp at h
      | waiting b => simp at h
      | running t0 => simp at h
      | finishing t0 => simp at h
      | exited => simp at h
  | endRun i =>
    simp only [step] at h
    cases hw : c.workers.get? i with
    | none => rw [hw] at h; simp at h
    | some w =>
      rw [hw] at h
      cases w with
      | running t0 =>
        simp only [Option.some.injEq] at h
        have hset : (c.workers.set i (WStatus.finishing t0)).countP isHoldRunB + 1
            = c.workers.countP isHoldRunB :=
          countP_set_tf isHoldRunB c.workers i _ _ hw rfl rfl
        show countHoldRun c'.workers ≤ c'.maxActive
        rw [hmax, ← h]
        show (c.workers.set i (WStatus.finishing t0)).countP isHoldRunB ≤ c.maxActive
        have : countHoldRun c.workers ≤ c.maxActive := hcap
        simp only [countHoldRun] at this
        omega
      | idle => simp at h
      | waiting b => simp at h
      | holding t0 => simp at h
      | finishing t0 => simp at h
      | exited => simp at h
  | finalizeTask i =>
    simp only [step] at h
    cases hw : c.workers.get? i with
    | none => rw [hw] at h; simp at h
    | some w =>
      rw [hw] at h
      cases w with
      | finishing t0 =>
        simp only [Option.some.injEq] at h
        have hset : (c.workers.set i WStatus.idle).countP isHoldRunB
            = c.workers.countP isHoldRunB :=
          countP_set_eq isHoldRunB c.workers i _ _ hw rfl
        show countHoldRun c'.workers ≤ c'.maxActive
        rw [hmax, ← h]
        show (c.workers.set i WStatus.idle).countP isHoldRunB ≤ c.maxActive
        rw [hset]
        exact hcap
      | idle => simp at h
      | waiting b => simp at h
      | holding t0 => simp at h
      | running t0 => simp at h
      | exited => simp at h
  | sleep i =>
    simp only [step] at h
    split at h
    case isTrue hg =>
      obtain ⟨hw, _, _⟩ := hg
      simp only [Option.some.injEq] at h
      have hset : (c.workers.set i (WStatus.waiting false)).countP isHoldRunB
          = c.workers.countP isHoldRunB :=
        countP_set_eq isHoldRunB c.workers i _ _ hw rfl
      show countHoldRun c'.workers ≤ c'.maxActive
      rw [hmax, ← h]
      show (c.workers.set i (WStatus.waiting false)).countP isHoldRunB ≤ c.maxActive
      rw [hset]
      exact hcap
    case isFalse => simp at h
  | wake i =>
    simp only [step] at h
    split at h
    case isTrue hw =>
      simp only [Option.some.injEq] at h
      have hset : (c.workers.set i WStatus.idle).countP isHoldRunB
          = c.workers.countP isHoldRunB :=
        countP_set_eq isHoldRunB c.workers i _ _ hw rfl
      show countHoldRun c'.workers ≤ c'.maxActive
      rw [hmax, ← h]
      show (c.workers.set i WStatus.idle).countP isHoldRunB ≤ c.maxActive
      rw [hset]
      exact hcap
    case isFalse => simp at h
  | exitWorker i =>
    simp only [step] at h
    split at h
    case isTrue hg =>
      obtain ⟨hw, _⟩ := hg
      simp only [Option.some.injEq] at h
      have hset : (c.workers.set i WStatus.exited).countP isHoldRunB
          = c.workers.countP isHoldRunB :=
        countP_set_eq isHoldRunB c.workers i _ _ hw rfl
      show countHoldRun c'.workers ≤ c'.maxActive
      rw [hmax, ← h]
      show (c.workers.set i WStatus.exited).countP isHoldRunB ≤ c.maxActive
      rw [hset]
      exact hcap
    case isFalse => simp at h
  | addTask sig =>
    cases sig with
    | none =>
      simp only [step] at h
      split at h
      · simp only [Option.some.injEq] at h
        show countHoldRun c'.workers ≤ c'.maxActive
        rw [hmax, ← h]
        exact hcap
      · simp at h
    | some i =>
      simp only [step] at h
      split at h
      · split at h
        next hg2 =>
          obtain ⟨hst2, hw⟩ := hg2
          simp only [Option.some.injEq] at h
          have hset : (c.workers.set i (WStatus.waiting true)).countP isHoldRunB
              = c.workers.countP isHoldRunB :=
            countP_set_eq isHoldRunB c.workers i _ _ hw rfl
          show countHoldRun c'.workers ≤ c'.maxActive
          rw [hmax, ← h]
          show (c.workers.set i (WStatus.waiting true)).countP isHoldRunB ≤ c.maxActive
          rw [hset]
          exact hcap
        next => simp at h
      · simp at h
  | startWorkers =>
    simp only [step] at h
    split at h
    · simp only [Option.some.injEq] at h
      show countHoldRun c'.workers ≤ c'.maxActive
      rw [hmax, ← h]
      show countHoldRun (wakeAll c.workers) ≤ c.maxActive
      rw [show countHoldRun (wakeAll c.workers) = countHoldRun c.workers from
        wakeAll_countP isHoldRunB rfl c.workers]
      exact hcap
    · simp at h
  | cDelete =>
    simp only [step] at h
    split at h
    · simp only [Option.some.injEq] at h
      show countHoldRun c'.workers ≤ c'.maxActive
      rw [hmax, ← h]
      show countHoldRun (wakeAll c.workers) ≤ c.maxActive
      rw [show countHoldRun (wakeAll c.workers) = countHoldRun c.workers from
        wakeAll_countP isHoldRunB rfl c.workers]
      exact hcap
    · simp at h
  | _ =>
    have hwk : c'.workers = c.workers := by
      simp only [step] at h
      repeat' split at h
      all_goals try simp only [Option.some.injEq] at h
      all_goals first
        | (subst h; rfl)
        | simp at h
    show countHoldRun c'.workers ≤ c'.maxActive
    rw [hwk, hmax]
    exact hcap

/-- Along a trace without SetMaxActiveWorkers, the invariant, the cap
bound and the cap value itself are all preserved. -/
theorem cap_runTrace (tr : List Label) (c c' : Config)
    (h : runTrace tr c = some c') (hc : Inv c) (hcap : capGood c)
    (hns : ∀ l ∈ tr, ∀ k, l ≠ Label.setMax k) :
    capGood c' ∧ c'.maxActive = c.maxActive := by
  induction tr generalizing c with
  | nil =>
    simp only [runTrace, Option.some.injEq] at h
    rw [← h]
    exact ⟨hcap, rfl⟩
  | cons l tr ih =>
    simp only [runTrace] at h
    cases hs : step l c with
    | none => rw [hs] at h; simp at h
    | some c1 =>
      rw [hs] at h
      have hl := hns l (List.mem_cons_self l tr)
      have hc1 := inv_step l c c1 hs hc
      have hcap1 := cap_step l c c1 hs hc hcap hl
      have hmax1 := step_maxActive l c c1 hs hl
      have := ih c1 h hc1 hcap1 (fun l2 hl2 => hns l2 (List.mem_cons_of_mem l hl2))
      exact ⟨this.1, this.2.trans hmax1⟩

end ThreadPoolModel
namespace BarrierModel

/-- Folding the waiter accumulator from any start appends the start. -/
theorem waiterStep_acc (os : List BOp) :
    ∀ acc, os.foldl waiterStep acc = os.foldl waiterStep [] ++ acc := by
  induction os with
  | nil => intro acc; simp
  | cons o os ih =>
    intro acc
    rw [List.foldl_cons, List.foldl_cons, ih (waiterStep acc o), ih (waiterStep [] o)]
    cases o with
    | inc d => simp [waiterStep]
    | incWait p d => simp [waiterStep]

/-- The waiters of a longer sequence extend those of its tail. -/
theorem waitersOf_cons (o : BOp) (os : List BOp) :
    waitersOf (o :: os) = waitersOf os ++ partyOf o := by
  show (o :: os).foldl waiterStep [] = waitersOf os ++ partyOf o
  rw [List.foldl_cons, waiterStep_acc os (waiterStep [] o)]
  cases o <;> simp [waiterStep, partyOf, waitersOf]

/-- Sum of deltas of a cons. -/
theorem sumDeltas_cons (o : BOp) (os : List BOp) :
    sumDeltas (o :: os) = deltaOf o + sumDeltas os := by
  simp [sumDeltas]

/-- A contribution that leaves the count positive releases nobody: the
count is adjusted and a blocking caller joins the blocked parties. -/
theorem applyOp_pos (b : BarrierState) (o : BOp) (h : 0 < b.count + deltaOf o) :
    applyOp b o = ⟨b.count + deltaOf o, partyOf o ++ b.blocked⟩ := by
  cases o with
  | inc d =>
    simp only [applyOp, increment, adjust, deltaOf] at h ⊢
    rw [if_neg (by omega)]
    simp [partyOf]
  | incWait p d =>
    have h' : 0 < b.count + d := by simpa [deltaOf] using h
    show incrementAndWait b p d = ⟨b.count + d, [p] ++ b.blocked⟩
    rw [show incrementAndWait b p d
        = if 0 < b.count + d then
            (⟨b.count + d, p :: (if b.count + d = 0 then [] else b.blocked)⟩ : BarrierState)
          else ⟨b.count + d, if b.count + d = 0 then [] else b.blocked⟩ from rfl]
    rw [if_pos h', if_neg (show ¬ (b.count + d = 0) by omega)]
    rfl

/-- A contribution that brings the count to exactly zero releases all
blocked parties, and a blocking caller does not block. -/
theorem applyOp_zero (b : BarrierState) (o : BOp) (h : b.count + deltaOf o = 0) :
    applyOp b o = ⟨0, []⟩ := by
  cases o with
  | inc d =>
    simp only [applyOp, increment, adjust, deltaOf] at h ⊢
    rw [if_pos h, h]
  | incWait p d =>
    have h' : b.count + d = 0 := by simpa [deltaOf] using h
    show incrementAndWait b p d = ⟨0, []⟩
    rw [show incrementAndWait b p d
        = if 0 < b.count + d then
            (⟨b.count + d, p :: (if b.count + d = 0 then [] else b.blocked)⟩ : BarrierState)
          else ⟨b.count + d, if b.count + d = 0 then [] else b.blocked⟩ from rfl]
    rw [if_neg (show ¬ (0 < b.count + d) by omega), if_pos h', h']

/-- While every prefix keeps the count positive, contributions accumulate:
the count is the initial count plus the deltas, the blocked parties are
exactly the blocking callers, and nobody is released. -/
theorem applyOps_pos (os : List BOp) :
    ∀ b : BarrierState,
      (∀ k, k < os.length → 0 < b.count + sumDeltas (os.take (k + 1))) →
      (applyOps b os).count = b.count + sumDeltas os ∧
      (applyOps b os).blocked = waitersOf os ++ b.blocked := by
  induction os with
  | nil =>
    intro b h
    simp [applyOps, sumDeltas, waitersOf]
  | cons o os ih =>
    intro b h
    have h0 : 0 < b.count + deltaOf o := by
      have hx := h 0 (by simp)
      rw [show (o :: os).take 1 = [o] from rfl] at hx
      simpa [sumDeltas] using hx
    have happ := applyOp_pos b o h0
    have hshift : ∀ k, k < os.length →
        0 < (applyOp b o).count + sumDeltas (os.take (k + 1)) := by
      intro k hk
      rw [happ]
      have hx := h (k + 1) (by simp; omega)
      rw [show (o :: os).take (k + 2) = o :: os.take (k + 1) from rfl,
        sumDeltas_cons] at hx
      show 0 < b.count + deltaOf o + sumDeltas (os.take (k + 1))
      omega
    have hrec := ih (applyOp b o) hshift
    constructor
    · show (applyOps (applyOp b o) os).count = b.count + sumDeltas (o :: os)
      rw [hrec.1, happ, sumDeltas_cons]
      show b.count + deltaOf o + sumDeltas os = b.count + (deltaOf o + sumDeltas os)
      omega
    · show (applyOps (applyOp b o) os).blocked = waitersOf (o :: os) ++ b.blocked
      rw [hrec.2, happ, waitersOf_cons]
      show waitersOf os ++ (partyOf o ++ b.blocked)
        = (waitersOf os ++ partyOf o) ++ b.blocked
      rw [List.append_assoc]

end BarrierModel

namespace ThreadPoolModel

/-- countP is monotone in the predicate. -/
theorem countP_mono {α : Type} (p q : α → Bool) (l : List α)
    (hpq : ∀ a, p a = true → q a = true) : l.countP p ≤ l.countP q := by
  induction l with
  | nil => exact Nat.le_refl 0
  | cons x xs ih =>
    rw [List.countP_cons, List.countP_cons]
    by_cases hx : p x = true
    · rw [if_pos hx, if_pos (hpq x hx)]
      omega
    · rw [if_neg hx]
      by_cases hq : q x = true
      · rw [if_pos hq]
        omega
      · rw [if_neg hq]
        omega

/-- An agent between Run and Finalize of t owns t. -/
theorem ranT_le_holdsT (t : Nat) (w : WStatus) (h : ranT t w = true) :
    holdsT t w = true := by
  cases w <;> simpa [ranT, holdsT] using h

/-- A client between Run and Finalize of t owns t. -/
theorem clientRanT_le_clientHoldsT (t : Nat) (s : CStatus)
    (h : clientRanT t s = true) : clientHoldsT t s = true := by
  cases s <;> simpa [clientRanT, clientHoldsT] using h

/-- C1: for every task ever submitted to the pool, across the whole model
lifecycle: Finalize is called at most once, and exactly once when the
destructor has completed; Run is called at most once; when a post-Run
Finalize happened, the Run of the task precedes it in the history; a task
finalized by the drain path was never run. -/
theorem C1_task_lifecycle (n : Nat) (tr : List Label) (c : Config)
    (h : runTrace tr (initConfig n) = some c) :
    ∀ t, t < c.nextId →
      finCount c.events t ≤ 1 ∧
      runCount c.events t ≤ 1 ∧
      (1 ≤ finRanCount c.events t → RunThenFin c.events t) ∧
      (1 ≤ finNotRanCount c.events t → runCount c.events t = 0) ∧
      (c.client = CStatus.cDone → finCount c.events t = 1) := by
  intro t ht
  have hc := inv_reachable n tr c h
  have hown := hc.ownership t
  simp only [holders, submittedInd] at hown
  rw [if_pos ht] at hown
  refine ⟨by omega, ?_, hc.runFinOrder t, hc.drainNoRun t, ?_⟩
  · have hrun := hc.runEq t
    simp only [activeRunCount] at hrun
    have hm1 : c.workers.countP (ranT t) ≤ c.workers.countP (holdsT t) :=
      countP_mono _ _ _ (ranT_le_holdsT t)
    have hm2 : (if clientRanT t c.client = true then 1 else 0)
        ≤ (if clientHoldsT t c.client = true then (1 : Nat) else 0) := by
      by_cases hcr : clientRanT t c.client = true
      · rw [if_pos hcr, if_pos (clientRanT_le_clientHoldsT t _ hcr)]
      · rw [if_neg hcr]
        omega
    have hsplit := finCount_split c.events t
    omega
  · intro hdone
    have hq : c.queue = [] := hc.doneQueue hdone
    have hex := hc.joinedExited (by rw [hdone]; rfl)
    have hwz : c.workers.countP (holdsT t) = 0 := by
      rw [List.countP_eq_zero]
      intro w hwm
      rw [hex w hwm]
      simp [holdsT]
    have hqz : c.queue.count t = 0 := by rw [hq]; rfl
    have hcz : (if clientHoldsT t c.client = true then 1 else 0) = 0 := by
      rw [hdone]
      simp [clientHoldsT]
    omega

/-- The full-lifecycle trace used to witness the lifecycle claims: one
worker, two tasks, the first executed by the worker, the second drained by
the destructor. -/
def lifecycleTrace : List Label :=
  [Label.addTask none, Label.addTask none, Label.startWorkers, Label.pop 0,
   Label.beginRun 0, Label.endRun 0, Label.finalizeTask 0, Label.cDelete,
   Label.exitWorker 0, Label.cJoin, Label.cDrainPop, Label.cDrainFin,
   Label.cFinishDrain]

/-- The state at the end of the lifecycle trace. -/
def lifecycleEnd : Config :=
  { queue := [], nextId := 2, started := true, shuttingDown := true,
    waitingCount := 0, maxActive := 1, workers := [WStatus.exited],
    client := CStatus.cDone, waiter := WaiterStatus.wIdle,
    events := [Event.pop 0 true, Event.run 0, Event.fin 0 true,
               Event.pop 1 false, Event.fin 1 false] }

/-- Witness for C1: the drained task of the lifecycle trace is finalized
exactly once and never run. -/
theorem C1_task_lifecycle_witness :
    finCount lifecycleEnd.events 1 ≤ 1 ∧
    runCount lifecycleEnd.events 1 ≤ 1 ∧
    (1 ≤ finRanCount lifecycleEnd.events 1 → RunThenFin lifecycleEnd.events 1) ∧
    (1 ≤ finNotRanCount lifecycleEnd.events 1 → runCount lifecycleEnd.events 1 = 0) ∧
    (lifecycleEnd.client = CStatus.cDone → finCount lifecycleEnd.events 1 = 1) :=
  C1_task_lifecycle 1 lifecycleTrace lifecycleEnd (by decide) 1 (by decide)

/-- Recognizer for the SetMaxActiveWorkers label. -/
def isSetMax : Label → Bool
  | Label.setMax _ => true
  | _ => false

/-- C2: on a pool whose admission cap was set to m and then never changed,
the number of workers concurrently inside Task::Run never exceeds m, and
GetTask pops a task only when GetThreadCount() - waiting_count_ is at most
the cap, the calling worker counted as active. -/
theorem C2_admission_cap (n m : Nat) (tr : List Label) (c1 c : Config)
    (h0 : step (Label.setMax m) (initConfig n) = some c1)
    (h : runTrace tr c1 = some c)
    (hns : ∀ l ∈ tr, isSetMax l = false) :
    countRunning c.workers ≤ m ∧
    (∀ i c2, step (Label.pop i) c = some c2 →
      c.workers.length - c.waitingCount ≤ m) := by
  have hInv1 : Inv c1 := inv_setMax _ _ m h0 (inv_init n)
  simp only [step] at h0
  split at h0
  case isTrue hg =>
    simp only [Option.some.injEq] at h0
    have hcap1 : capGood c1 := by
      rw [← h0]
      show countHoldRun (List.replicate n WStatus.idle) ≤ m
      rw [show countHoldRun (List.replicate n WStatus.idle) = 0 from
        countP_replicate_idle n isHoldRunB rfl]
      omega
    have hmax1 : c1.maxActive = m := by rw [← h0]
    have hns2 : ∀ l ∈ tr, ∀ k, l ≠ Label.setMax k := by
      intro l hl k he
      have := hns l hl
      rw [he] at this
      simp [isSetMax] at this
    have hmain := cap_runTrace tr c1 c h hInv1 hcap1 hns2
    constructor
    · have hq := hmain.1
      have hle := countRunning_le_countHoldRun c.workers
      show countRunning c.workers ≤ m
      have : countHoldRun c.workers ≤ c.maxActive := hq
      rw [hmain.2, hmax1] at this
      omega
    · intro i c2 hp
      obtain ⟨_, _, hcap2, _⟩ := pop_guard c c2 i hp
      rw [hmain.2, hmax1] at hcap2
      exact hcap2
  case isFalse => simp at h0

/-- The state set up for the C2 witness: roster 2, cap 1, one worker
blocked, the other inside Run. -/
def capTrace : List Label :=
  [Label.addTask none, Label.addTask none, Label.startWorkers, Label.sleep 1,
   Label.pop 0, Label.beginRun 0]

/-- The state at the end of the cap witness trace. -/
def capEnd : Config :=
  { queue := [1], nextId := 2, started := true, shuttingDown := false,
    waitingCount := 1, maxActive := 1,
    workers := [WStatus.running 0, WStatus.waiting false],
    client := CStatus.cIdle, waiter := WaiterStatus.wIdle,
    events := [Event.pop 0 true, Event.run 0] }

/-- Witness for C2: with roster 2 and cap 1, at most one worker is inside
Run although a task remains queued. -/
theorem C2_admission_cap_witness : countRunning capEnd.workers ≤ 1 :=
  (C2_admission_cap 2 1 capTrace
    { initConfig 2 with maxActive := 1 } capEnd (by decide) (by decide)
    (by decide)).1

/-- C10: the destructor joins every worker before RemoveAllTasks runs: in
any reachable state past the join all workers have exited; a drain
Finalize can only fire with every worker exited; and a task finalized by
the drain was never run. -/
theorem C10_teardown_order (n : Nat) (tr : List Label) (c : Config)
    (h : runTrace tr (initConfig n) = some c) :
    (joinedPhase c.client = true → ∀ w ∈ c.workers, w = WStatus.exited) ∧
    (∀ c2, step Label.cDrainFin c = some c2 → ∀ w ∈ c.workers, w = WStatus.exited) ∧
    (∀ t, 1 ≤ finNotRanCount c.events t → runCount c.events t = 0) := by
  have hc := inv_reachable n tr c h
  refine ⟨hc.joinedExited, ?_, hc.drainNoRun⟩
  intro c2 h2
  simp only [step] at h2
  cases hcl : c.client with
  | cDrainHold t0 =>
    exact hc.joinedExited (by rw [hcl]; rfl)
  | cIdle => rw [hcl] at h2; simp at h2
  | cHold t0 => rw [hcl] at h2; simp at h2
  | cRun t0 => rw [hcl] at h2; simp at h2
  | cFin t0 => rw [hcl] at h2; simp at h2
  | cShut => rw [hcl] at h2; simp at h2
  | cJoined => rw [hcl] at h2; simp at h2
  | cDone => rw [hcl] at h2; simp at h2

/-- Witness for C10 at the end of the lifecycle trace: the drained task
was never run. -/
theorem C10_teardown_order_witness :
    runCount lifecycleEnd.events 1 = 0 :=
  (C10_teardown_order 1 lifecycleTrace lifecycleEnd (by decide)).2.2 1 (by decide)

end ThreadPoolModel

namespace ThreadPoolModel

/-- The trace reaching a stopped pool with a queued task and an active
(non-blocked) worker: one worker runs a task to completion, then the
client calls StopWorkers while a second task is still queued. -/
def stopTrace : List Label :=
  [Label.addTask none, Label.addTask none, Label.startWorkers, Label.pop 0,
   Label.beginRun 0, Label.endRun 0, Label.finalizeTask 0, Label.stopWorkers]

/-- The stopped state reached by stopTrace. -/
def stopEnd : Config :=
  { queue := [1], nextId := 2, started := false, shuttingDown := false,
    waitingCount := 0, maxActive := 1, workers := [WStatus.idle],
    client := CStatus.cIdle, waiter := WaiterStatus.wIdle,
    events := [Event.pop 0 true, Event.run 0, Event.fin 0 true] }

/-- The state after the looping worker dequeues despite started_ = false. -/
def stopAfter : Config :=
  { queue := [], nextId := 2, started := false, shuttingDown := false,
    waitingCount := 0, maxActive := 1, workers := [WStatus.holding 1],
    client := CStatus.cIdle, waiter := WaiterStatus.wIdle,
    events := [Event.pop 0 true, Event.run 0, Event.fin 0 true,
               Event.pop 1 true] }

/-- Counterexample to C4 as stated: in a reachable state with started_ =
false, reached by StopWorkers with no StartWorkers afterwards, a worker
still in its GetTask loop dequeues a task: GetTask does not consult
started_. -/
theorem C4_counterexample :
    runTrace stopTrace (initConfig 1) = some stopEnd ∧
    stopEnd.started = false ∧
    step (Label.pop 0) stopEnd = some stopAfter := by
  refine ⟨by decide, rfl, by decide⟩

/-- C4 amended: after StopWorkers, a worker blocked in the condition wait
stays blocked under every step except StartWorkers and the destructor
broadcast: AddTask does not signal when started_ is false, so stop keeps
blocked workers idle and does not terminate them; but it does not prevent
dequeues by workers that are not blocked. -/
theorem C4_stop_keeps_blocked (c c' : Config) (l : Label) (i : Nat)
    (h : step l c = some c')
    (hstop : c.started = false)
    (hi : c.workers.get? i = some (WStatus.waiting false))
    (hl1 : l ≠ Label.startWorkers) (hl2 : l ≠ Label.cDelete) :
    c'.workers.get? i = some (WStatus.waiting false) := by
  cases l with
  | startWorkers => exact absurd rfl hl1
  | cDelete => exact absurd rfl hl2
  | addTask sig =>
    cases sig with
    | none =>
      simp only [step] at h
      split at h
      · simp only [Option.some.injEq] at h
        subst h
        exact hi
      · simp at h
    | some j =>
      simp only [step] at h
      split at h
      · split at h
        next hg2 =>
          have hx := hg2.1
          rw [hstop] at hx
          exact Bool.noConfusion hx
        next => simp at h
      · simp at h
  | pop j =>
    simp only [step] at h
    split at h
    case isTrue hg =>
      cases hq : c.queue with
      | nil => rw [hq] at h; simp at h
      | cons t ts =>
        rw [hq] at h
        simp only [Option.some.injEq] at h
        subst h
        have hne : j ≠ i := by
          intro he
          rw [he] at hg
          have hx := hg.1
          rw [hx] at hi
          simp at hi
        show (c.workers.set j (WStatus.holding t)).get? i = some (WStatus.waiting false)
        rw [List.get?_set_ne _ _ hne]
        exact hi
    case isFalse => simp at h
  | sleep j =>
    simp only [step] at h
    split at h
    case isTrue hg =>
      simp only [Option.some.injEq] at h
      subst h
      have hne : j ≠ i := by
        intro he
        rw [he] at hg
        have hx := hg.1
        rw [hx] at hi
        simp at hi
      show (c.workers.set j (WStatus.waiting false)).get? i = some (WStatus.waiting false)
      rw [List.get?_set_ne _ _ hne]
      exact hi
    case isFalse => simp at h
  | wake j =>
    simp only [step] at h
    split at h
    case isTrue hg =>
      simp only [Option.some.injEq] at h
      subst h
      have hne : j ≠ i := by
        intro he
        rw [he] at hg
        rw [hg] at hi
        simp at hi
      show (c.workers.set j WStatus.idle).get? i = some (WStatus.waiting false)
      rw [List.get?_set_ne _ _ hne]
      exact hi
    case isFalse => simp at h
  | beginRun j =>
    simp only [step] at h
    cases hw : c.workers.get? j with
    | none => rw [hw] at h; simp at h
    | some w =>
      rw [hw] at h
      cases w with
      | holding t0 =>
        simp only [Option.some.injEq] at h
        subst h
        have hne : j ≠ i := by
          intro he
          rw [he] at hw
          rw [hw] at hi
          simp at hi
        show (c.workers.set j (WStatus.running t0)).get? i = some (WStatus.waiting false)
        rw [List.get?_set_ne _ _ hne]
        exact hi
      | idle => simp at h
      | waiting b => simp at h
      | running t0 => simp at h
      | finishing t0 => simp at h
      | exited => simp at h
  | endRun j =>
    simp only [step] at h
    cases hw : c.workers.get? j with
    | none => rw [hw] at h; simp at h
    | some w =>
      rw [hw] at h
      cases w with
      | running t0 =>
        simp only [Option.some.injEq] at h
        subst h
        have hne : j ≠ i := by
          intro he
          rw [he] at hw
          rw [hw] at hi
          simp at hi
        show (c.workers.set j (WStatus.finishing t0)).get? i = some (WStatus.waiting false)
        rw [List.get?_set_ne _ _ hne]
        exact hi
      | idle => simp at h
      | waiting b => simp at h
      | holding t0 => simp at h
      | finishing t0 => simp at h
      | exited => simp at h
  | finalizeTask j =>
    simp only [step] at h
    cases hw : c.workers.get? j with
    | none => rw [hw] at h; simp at h
    | some w =>
      rw [hw] at h
      cases w with
      | finishing t0 =>
        simp only [Option.some.injEq] at h
        subst h
        have hne : j ≠ i := by
          intro he
          rw [he] at hw
          rw [hw] at hi
          simp at hi
        show (c.workers.set j WStatus.idle).get? i = some (WStatus.waiting false)
        rw [List.get?_set_ne _ _ hne]
        exact hi
      | idle => simp at h
      | waiting b => simp at h
      | holding t0 => simp at h
      | running t0 => simp at h
      | exited => simp at h
  | exitWorker j =>
    simp only [step] at h
    split at h
    case isTrue hg =>
      simp only [Option.some.injEq] at h
      subst h
      have hne : j ≠ i := by
        intro he
        rw [he] at hg
        have hx := hg.1
        rw [hx] at hi
        simp at hi
      show (c.workers.set j WStatus.exited).get? i = some (WStatus.waiting false)
      rw [List.get?_set_ne _ _ hne]
      exact hi
    case isFalse => simp at h
  | _ =>
    have hwk : c'.workers = c.workers := by
      simp only [step] at h
      repeat' split at h
      all_goals try simp only [Option.some.injEq] at h
      all_goals first
        | (subst h; rfl)
        | simp at h
    rw [hwk]
    exact hi

/-- A state with one blocked worker, used to witness the amended C4. -/
def blockedState : Config :=
  { queue := [0], nextId := 1, started := false, shuttingDown := false,
    waitingCount := 1, maxActive := 2,
    workers := [WStatus.idle, WStatus.waiting false],
    client := CStatus.cIdle, waiter := WaiterStatus.wIdle, events := [] }

/-- Witness for the amended C4: while stopped, a pop by the active worker
leaves the blocked worker blocked. -/
theorem C4_stop_keeps_blocked_witness :
    ({ queue := ([] : List Nat), nextId := 1, started := false,
       shuttingDown := false, waitingCount := 1, maxActive := 2,
       workers := [WStatus.holding 0, WStatus.waiting false],
       client := CStatus.cIdle, waiter := WaiterStatus.wIdle,
       events := [Event.pop 0 true] } : Config).workers.get? 1
      = some (WStatus.waiting false) :=
  C4_stop_keeps_blocked blockedState _ (Label.pop 0) 1 (by decide) rfl rfl
    (by decide) (by decide)

/-- C6: the Wait caller returns exactly when shutting_down_ is set or the
pool is quiescent (waiting_count_ equal to the roster size and the queue
empty): leaving Wait implies that condition held, and, conversely, a Wait
caller testing the loop condition when it holds returns; moreover the
sleep branch of GetTask broadcasts the completion condition (waking the
blocked Wait caller) exactly when the last worker goes idle with an empty
queue. -/
theorem C6_wait_idle :
    (∀ c c' : Config,
      (step Label.wEnter c = some c' ∨ step Label.wWake c = some c') →
      c'.waiter = WaiterStatus.wDone →
      c.shuttingDown = true ∨
        (c.waitingCount = c.workers.length ∧ c.queue = [])) ∧
    (∀ c : Config, c.waiter = WaiterStatus.wIdle → quiescentOrShutdown c = true →
      step Label.wEnter c = some { c with waiter := WaiterStatus.wDone }) ∧
    (∀ c : Config, c.waiter = WaiterStatus.wBlocked true →
      quiescentOrShutdown c = true →
      step Label.wWake c = some { c with waiter := WaiterStatus.wDone }) ∧
    (∀ (c c' : Config) (i : Nat), step (Label.sleep i) c = some c' →
      c.waiter = WaiterStatus.wBlocked false →
      (c'.waiter = WaiterStatus.wBlocked true ↔
        (c.waitingCount + 1 = c.workers.length ∧ c.queue = []))) := by
  refine ⟨?_, ?_, ?_, ?_⟩
  · intro c c' hst hdone
    have hgen : ∀ d : Config,
        (if quiescentOrShutdown c then some { c with waiter := WaiterStatus.wDone }
         else some { c with waiter := WaiterStatus.wBlocked false }) = some d →
        d.waiter = WaiterStatus.wDone →
        c.shuttingDown = true ∨
          (c.waitingCount = c.workers.length ∧ c.queue = []) := by
      intro d hd hdw
      split at hd
      case isTrue hq =>
        simpa [quiescentOrShutdown, List.isEmpty_iff] using hq
      case isFalse hq =>
        simp only [Option.some.injEq] at hd
        rw [← hd] at hdw
        simp at hdw
    rcases hst with h | h
    · simp only [step] at h
      split at h
      case isTrue => exact hgen c' h hdone
      case isFalse => simp at h
    · simp only [step] at h
      split at h
      case isTrue => exact hgen c' h hdone
      case isFalse => simp at h
  · intro c hw hq
    simp only [step]
    rw [if_pos hw, if_pos hq]
  · intro c hw hq
    simp only [step]
    rw [if_pos hw, if_pos hq]
  · intro c c' i hstep hwf
    simp only [step] at hstep
    split at hstep
    case isTrue hg =>
      simp only [Option.some.injEq] at hstep
      subst hstep
      constructor
      · intro hwt
        by_cases hcond : c.waitingCount + 1 = c.workers.length ∧ c.queue = []
        · exact hcond
        · exfalso
          have hx : (if c.waitingCount + 1 = c.workers.length ∧ c.queue = [] then
              wakeWaiter c.waiter else c.waiter) = WaiterStatus.wBlocked true := hwt
          rw [if_neg hcond, hwf] at hx
          simp at hx
      · intro hcond
        show (if c.waitingCount + 1 = c.workers.length ∧ c.queue = [] then
            wakeWaiter c.waiter else c.waiter) = WaiterStatus.wBlocked true
        rw [if_pos hcond, hwf]
        rfl
    case isFalse => simp at hstep

/-- Witness for C6: on an empty pool with no workers, Wait returns at
once. -/
theorem C6_wait_idle_witness :
    step Label.wEnter (initConfig 0)
      = some { initConfig 0 with waiter := WaiterStatus.wDone } :=
  C6_wait_idle.2.1 (initConfig 0) rfl (by decide)

/-- The reachable state showing that TryGetTask ignores the admission cap:
roster 1, cap lowered to 0, one queued task. -/
def satState : Config :=
  { queue := [0], nextId := 1, started := false, shuttingDown := false,
    waitingCount := 0, maxActive := 0, workers := [WStatus.idle],
    client := CStatus.cIdle, waiter := WaiterStatus.wIdle, events := [] }

/-- Counterexample to C7 as stated: in a reachable state where the
admission condition of GetTask fails (GetThreadCount() - waiting_count_
exceeds max_active_workers_, so GetTask would not pop), TryGetTask still
pops and returns the front task, while the spec-modelled try_get_task
with the admission check returns no task. -/
theorem C7_counterexample :
    runTrace [Label.setMax 0, Label.addTask none] (initConfig 1) = some satState ∧
    ¬ (satState.workers.length - satState.waitingCount ≤ satState.maxActive) ∧
    tryGetTask satState = (some 0, { satState with queue := [] }) ∧
    tryGetTaskSpec satState = (none, satState) := by
  refine ⟨by decide, by decide, rfl, by decide⟩

/-- C7 amended: TryGetTask never blocks and applies no admission check: it
returns no task exactly when the queue is empty, and otherwise pops and
returns the front task. -/
theorem C7_tryGetTask (c : Config) :
    (c.queue = [] → tryGetTask c = (none, c)) ∧
    (∀ t ts, c.queue = t :: ts → tryGetTask c = (some t, { c with queue := ts })) := by
  constructor
  · intro hq
    simp [tryGetTask, hq]
  · intro t ts hq
    simp [tryGetTask, hq]

/-- Witness for the amended C7: the front task is popped regardless of the
saturated cap. -/
theorem C7_tryGetTask_witness :
    tryGetTask satState = (some 0, { satState with queue := [] }) :=
  (C7_tryGetTask satState).2 0 [] rfl

/-- C8: lifecycle misuse is a fatal assertion: SetMaxActiveWorkers aborts
exactly when the requested cap exceeds the roster size (so under the
precondition it never aborts and sets the cap), and CreateThreads aborts
when the roster is already non-empty. -/
theorem C8_lifecycle_assertions :
    (∀ (c : Config) (m : Nat), c.workers.length < m →
      setMaxActiveWorkers c m = none) ∧
    (∀ (c : Config) (m : Nat), m ≤ c.workers.length →
      setMaxActiveWorkers c m = some { c with maxActive := m }) ∧
    (∀ c : Config, c.workers ≠ [] → createThreads c = none) := by
  refine ⟨?_, ?_, ?_⟩
  · intro c m hm
    simp only [setMaxActiveWorkers]
    rw [if_neg (by omega)]
  · intro c m hm
    simp only [setMaxActiveWorkers]
    rw [if_pos hm]
  · intro c hc
    simp only [createThreads]
    rw [if_neg hc]

/-- Witness for C8 at concrete pools. -/
theorem C8_lifecycle_assertions_witness :
    setMaxActiveWorkers (initConfig 1) 2 = none ∧
    setMaxActiveWorkers (initConfig 2) 1
      = some { initConfig 2 with maxActive := 1 } ∧
    createThreads (initConfig 1) = none :=
  ⟨C8_lifecycle_assertions.1 (initConfig 1) 2 (by decide),
   C8_lifecycle_assertions.2.1 (initConfig 2) 1 (by decide),
   C8_lifecycle_assertions.2.2 (initConfig 1) (by decide)⟩

end ThreadPoolModel

namespace ThreadPoolModel

/-- The task a worker has dequeued but not yet run, if any. -/
def heldOf : WStatus → List Nat
  | WStatus.holding t => [t]
  | _ => []

/-- Single-worker bookkeeping: with a one-worker roster, the tasks the
worker has run, followed by its dequeued-but-unrun task, are exactly the
tasks the worker has dequeued, in order. -/
def SingleInv (c : Config) : Prop :=
  ∀ w, c.workers = [w] →
    runsOf c.events ++ heldOf w = workerPopsOf c.events

/-- Worker dequeues are a subsequence of all dequeues. -/
theorem workerPops_sublist (evs : List Event) :
    (workerPopsOf evs).Sublist (popsOf evs) := by
  induction evs with
  | nil => simp [workerPopsOf, popsOf]
  | cons e evs ih =>
    cases e with
    | pop t b =>
      cases b
      · have h1 : workerPopsOf (Event.pop t false :: evs) = workerPopsOf evs := by
          simp [workerPopsOf, List.filterMap_cons, workerPopId]
        have h2 : popsOf (Event.pop t false :: evs) = t :: popsOf evs := by
          simp [popsOf, List.filterMap_cons, popId]
        rw [h1, h2]
        exact ih.cons t
      · have h1 : workerPopsOf (Event.pop t true :: evs)
            = t :: workerPopsOf evs := by
          simp [workerPopsOf, List.filterMap_cons, workerPopId]
        have h2 : popsOf (Event.pop t true :: evs) = t :: popsOf evs := by
          simp [popsOf, List.filterMap_cons, popId]
        rw [h1, h2]
        exact ih.cons₂ t
    | run t =>
      have h1 : workerPopsOf (Event.run t :: evs) = workerPopsOf evs := by
        simp [workerPopsOf, List.filterMap_cons, workerPopId]
      have h2 : popsOf (Event.run t :: evs) = popsOf evs := by
        simp [popsOf, List.filterMap_cons, popId]
      rw [h1, h2]
      exact ih
    | fin t b =>
      have h1 : workerPopsOf (Event.fin t b :: evs) = workerPopsOf evs := by
        simp [workerPopsOf, List.filterMap_cons, workerPopId]
      have h2 : popsOf (Event.fin t b :: evs) = popsOf evs := by
        simp [popsOf, List.filterMap_cons, popId]
      rw [h1, h2]
      exact ih

/-- Updating the lone worker with one of equal held task keeps the
single-worker bookkeeping, as long as the events keep the run and
worker-dequeue sequences. -/
theorem single_set_helper (c : Config) (hs : SingleInv c) (i : Nat)
    (a b : WStatus) (hw : c.workers.get? i = some a)
    (hab : heldOf a = heldOf b) (evs' : List Event)
    (h1 : runsOf evs' = runsOf c.events)
    (h2 : workerPopsOf evs' = workerPopsOf c.events) :
    ∀ w', c.workers.set i b = [w'] →
      runsOf evs' ++ heldOf w' = workerPopsOf evs' := by
  intro w' hw'
  have hlen : c.workers.length = 1 := by
    have hx := congrArg List.length hw'
    simpa [List.length_set] using hx
  obtain ⟨w0, hw0⟩ := List.length_eq_one.mp hlen
  have hi0 : i = 0 ∧ w0 = a := by
    rw [hw0] at hw
    cases i with
    | zero =>
      simp at hw
      exact ⟨rfl, hw⟩
    | succ j => simp at hw
  have hw'b : w' = b := by
    rw [hw0, hi0.1] at hw'
    simp at hw'
    exact hw'.symm
  rw [h1, h2, hw'b, ← hab, ← hi0.2]
  exact hs w0 hw0

/-- Steps that leave the roster untouched keep the single-worker
bookkeeping, as long as the events keep the run and worker-dequeue
sequences. -/
theorem single_keep_helper (c : Config) (hs : SingleInv c) (evs' : List Event)
    (h1 : runsOf evs' = runsOf c.events)
    (h2 : workerPopsOf evs' = workerPopsOf c.events) :
    ∀ w', c.workers = [w'] →
      runsOf evs' ++ heldOf w' = workerPopsOf evs' := by
  intro w' hw'
  rw [h1, h2]
  exact hs w' hw'

/-- Broadcasting keeps the single-worker bookkeeping. -/
theorem single_wakeAll_helper (c : Config) (hs : SingleInv c) :
    ∀ w', wakeAll c.workers = [w'] →
      runsOf c.events ++ heldOf w' = workerPopsOf c.events := by
  intro w' hw'
  have hlen : c.workers.length = 1 := by
    have hx := congrArg List.length hw'
    simpa [wakeAll_length] using hx
  obtain ⟨w0, hw0⟩ := List.length_eq_one.mp hlen
  have him : wakeAll [w0] = [w'] := by rw [← hw0]; exact hw'
  have hheld : heldOf w' = heldOf w0 := by
    cases w0 with
    | waiting b =>
      have : w' = WStatus.waiting true := by
        have hx : ([WStatus.waiting true] : List WStatus) = [w'] := him
        simp at hx
        exact hx.symm
      rw [this]
      rfl
    | idle =>
      have hx : ([WStatus.idle] : List WStatus) = [w'] := him
      simp at hx
      rw [← hx]
    | holding t =>
      have hx : ([WStatus.holding t] : List WStatus) = [w'] := him
      simp at hx
      rw [← hx]
    | running t =>
      have hx : ([WStatus.running t] : List WStatus) = [w'] := him
      simp at hx
      rw [← hx]
    | finishing t =>
      have hx : ([WStatus.finishing t] : List WStatus) = [w'] := him
      simp at hx
      rw [← hx]
    | exited =>
      have hx : ([WStatus.exited] : List WStatus) = [w'] := him
      simp at hx
      rw [← hx]
  rw [hheld]
  exact hs w0 hw0

/-- Every step except the drain loop's Run call preserves the
single-worker bookkeeping. -/
theorem single_step (l : Label) (c c' : Config)
    (h : step l c = some c') (hl : l ≠ Label.cBeginRun)
    (hs : SingleInv c) : SingleInv c' := by
  cases l with
  | cBeginRun => exact absurd rfl hl
  | pop i =>
    obtain ⟨hw, hsd, hcap, t, ts, hq, hq2, hev, hww⟩ := pop_guard c c' i h
    intro w' hw'
    rw [hww] at hw'
    have hlen : c.workers.length = 1 := by
      have hx := congrArg List.length hw'
      simpa [List.length_set] using hx
    obtain ⟨w0, hw0⟩ := List.length_eq_one.mp hlen
    have hi0 : i = 0 ∧ w0 = WStatus.idle := by
      rw [hw0] at hw
      cases i with
      | zero =>
        simp at hw
        exact ⟨rfl, hw⟩
      | succ j => simp at hw
    have hw'b : w' = WStatus.holding t := by
      rw [hw0, hi0.1] at hw'
      simp at hw'
      exact hw'.symm
    have hold := hs w0 hw0
    rw [hi0.2] at hold
    simp only [heldOf, List.append_nil] at hold
    rw [hev, hw'b]
    rw [workerPopsOf_append_pop, runsOf_append_pop]
    simp only [heldOf]
    rw [hold]
  | beginRun i =>
    simp only [step] at h
    cases hw : c.workers.get? i with
    | none => rw [hw] at h; simp at h
    | some w =>
      rw [hw] at h
      cases w with
      | holding t0 =>
        simp only [Option.some.injEq] at h
        subst h
        intro w' hw'
        have hw'x : c.workers.set i (WStatus.running t0) = [w'] := hw'
        have hlen : c.workers.length = 1 := by
          have hx := congrArg List.length hw'x
          simpa [List.length_set] using hx
        obtain ⟨w0, hw0⟩ := List.length_eq_one.mp hlen
        have hi0 : i = 0 ∧ w0 = WStatus.holding t0 := by
          rw [hw0] at hw
          cases i with
          | zero =>
            simp at hw
            exact ⟨rfl, hw⟩
          | succ j => simp at hw
        have hw'b : w' = WStatus.running t0 := by
          rw [hw0, hi0.1] at hw'x
          simp at hw'x
          exact hw'x.symm
        have hold := hs w0 hw0
        rw [hi0.2] at hold
        simp only [heldOf] at hold
        show runsOf (c.events ++ [Event.run t0]) ++ heldOf w'
          = workerPopsOf (c.events ++ [Event.run t0])
        rw [runsOf_append_run, workerPopsOf_append_run, hw'b]
        simp only [heldOf, List.append_nil]
        exact hold
      | idle => simp at h
      | waiting b => simp at h
      | running t0 => simp at h
      | finishing t0 => simp at h
      | exited => simp at h
  | endRun i =>
    simp only [step] at h
    cases hw : c.workers.get? i with
    | none => rw [hw] at h; simp at h
    | some w =>
      rw [hw] at h
      cases w with
      | running t0 =>
        simp only [Option.some.injEq] at h
        subst h
        exact single_set_helper c hs i (WStatus.running t0) (WStatus.finishing t0)
          hw rfl c.events rfl rfl
      | idle => simp at h
      | waiting b => simp at h
      | holding t0 => simp at h
      | finishing t0 => simp at h
      | exited => simp at h
  | finalizeTask i =>
    simp only [step] at h
    cases hw : c.workers.get? i with
    | none => rw [hw] at h; simp at h
    | some w =>
      rw [hw] at h
      cases w with
      | finishing t0 =>
        simp only [Option.some.injEq] at h
        subst h
        exact single_set_helper c hs i (WStatus.finishing t0) WStatus.idle hw rfl
          (c.events ++ [Event.fin t0 true])
          (runsOf_append_fin c.events t0 true)
          (workerPopsOf_append_fin c.events t0 true)
      | idle => simp at h
      | waiting b => simp at h
      | holding t0 => simp at h
      | running t0 => simp at h
      | exited => simp at h
  | sleep i =>
    simp only [step] at h
    split at h
    case isTrue hg =>
      simp only [Option.some.injEq] at h
      subst h
      exact single_set_helper c hs i WStatus.idle (WStatus.waiting false)
        hg.1 rfl c.events rfl rfl
    case isFalse => simp at h
  | wake i =>
    simp only [step] at h
    split at h
    case isTrue hw =>
      simp only [Option.some.injEq] at h
      subst h
      exact single_set_helper c hs i (WStatus.waiting true) WStatus.idle
        hw rfl c.events rfl rfl
    case isFalse => simp at h
  | exitWorker i =>
    simp only [step] at h
    split at h
    case isTrue hg =>
      simp only [Option.some.injEq] at h
      subst h
      exact single_set_helper c hs i WStatus.idle WStatus.exited
        hg.1 rfl c.events rfl rfl
    case isFalse => simp at h
  | addTask sig =>
    cases sig with
    | none =>
      simp only [step] at h
      split at h
      · simp only [Option.some.injEq] at h
        subst h
        exact single_keep_helper c hs c.events rfl rfl
      · simp at h
    | some j =>
      simp only [step] at h
      split at h
      · split at h
        next hg2 =>
          simp only [Option.some.injEq] at h
          subst h
          exact single_set_helper c hs j (WStatus.waiting false) (WStatus.waiting true)
            hg2.2 rfl c.events rfl rfl
        next => simp at h
      · simp at h
  | startWorkers =>
    simp only [step] at h
    split at h
    · simp only [Option.some.injEq] at h
      subst h
      exact single_wakeAll_helper c hs
    · simp at h
  | cDelete =>
    simp only [step] at h
    split at h
    · simp only [Option.some.injEq] at h
      subst h
      exact single_wakeAll_helper c hs
    · simp at h
  | cTryPop =>
    simp only [step] at h
    split at h
    case isTrue hcl =>
      cases hq : c.queue with
      | nil => rw [hq] at h; simp at h
      | cons t ts =>
        rw [hq] at h
        simp only [Option.some.injEq] at h
        subst h
        exact single_keep_helper c hs (c.events ++ [Event.pop t false])
          (runsOf_append_pop c.events t false)
          (workerPopsOf_append_cpop c.events t)
    case isFalse => simp at h
  | cDrainPop =>
    simp only [step] at h
    split at h
    case isTrue hcl =>
      cases hq : c.queue with
      | nil => rw [hq] at h; simp at h
      | cons t ts =>
        rw [hq] at h
        simp only [Option.some.injEq] at h
        subst h
        exact single_keep_helper c hs (c.events ++ [Event.pop t false])
          (runsOf_append_pop c.events t false)
          (workerPopsOf_append_cpop c.events t)
    case isFalse => simp at h
  | cFinalize =>
    simp only [step] at h
    cases hcl : c.client with
    | cFin t0 =>
      rw [hcl] at h
      simp only [Option.some.injEq] at h
      subst h
      exact single_keep_helper c hs (c.events ++ [Event.fin t0 true])
        (runsOf_append_fin c.events t0 true)
        (workerPopsOf_append_fin c.events t0 true)
    | cIdle => rw [hcl] at h; simp at h
    | cHold t0 => rw [hcl] at h; simp at h
    | cRun t0 => rw [hcl] at h; simp at h
    | cShut => rw [hcl] at h; simp at h
    | cJoined => rw [hcl] at h; simp at h
    | cDrainHold t0 => rw [hcl] at h; simp at h
    | cDone => rw [hcl] at h; simp at h
  | cDrainFin =>
    simp only [step] at h
    cases hcl : c.client with
    | cDrainHold t0 =>
      rw [hcl] at h
      simp only [Option.some.injEq] at h
      subst h
      exact single_keep_helper c hs (c.events ++ [Event.fin t0 false])
        (runsOf_append_fin c.events t0 false)
        (workerPopsOf_append_fin c.events t0 false)
    | cIdle => rw [hcl] at h; simp at h
    | cHold t0 => rw [hcl] at h; simp at h
    | cRun t0 => rw [hcl] at h; simp at h
    | cFin t0 => rw [hcl] at h; simp at h
    | cShut => rw [hcl] at h; simp at h
    | cJoined => rw [hcl] at h; simp at h
    | cDone => rw [hcl] at h; simp at h
  | _ =>
    have hx : c'.workers = c.workers ∧ c'.events = c.events := by
      simp only [step] at h
      repeat' split at h
      all_goals try simp only [Option.some.injEq] at h
      all_goals first
        | (subst h; exact ⟨rfl, rfl⟩)
        | simp at h
    intro w' hw'
    rw [hx.1] at hw'
    rw [hx.2]
    exact hs w' hw'

/-- Along a trace without drain Run calls, the single-worker bookkeeping
is preserved. -/
theorem single_runTrace (tr : List Label) (c c' : Config)
    (h : runTrace tr c = some c') (hl : ∀ l ∈ tr, l ≠ Label.cBeginRun)
    (hs : SingleInv c) : SingleInv c' := by
  induction tr generalizing c with
  | nil =>
    simp only [runTrace, Option.some.injEq] at h
    rw [← h]
    exact hs
  | cons l tr ih =>
    simp only [runTrace] at h
    cases hstep : step l c with
    | none => rw [hstep] at h; simp at h
    | some c1 =>
      rw [hstep] at h
      exact ih c1 h (fun l2 hl2 => hl l2 (List.mem_cons_of_mem l hl2))
        (single_step l c c1 hstep (hl l (List.mem_cons_self l tr)) hs)

/-- The roster size is constant along a trace. -/
theorem runTrace_workers_length (tr : List Label) (c c' : Config)
    (h : runTrace tr c = some c') : c'.workers.length = c.workers.length := by
  induction tr generalizing c with
  | nil =>
    simp only [runTrace, Option.some.injEq] at h
    rw [← h]
  | cons l tr ih =>
    simp only [runTrace] at h
    cases hstep : step l c with
    | none => rw [hstep] at h; simp at h
    | some c1 =>
      rw [hstep] at h
      rw [ih c1 h, step_workers_length l c c1 hstep]

/-- C5: tasks are dequeued in submission order: the sequence of dequeued
task ids is strictly increasing; the task at the front of the queue is the
oldest task still queued; a GetTask pop removes exactly the front task and
appends it to the dequeue sequence; and with exactly one worker and no
self-service drain Run calls, the sequence of tasks on which Run is
called is strictly increasing, i.e. tasks run in submission order. -/
theorem C5_fifo (n : Nat) (tr : List Label) (c : Config)
    (h : runTrace tr (initConfig n) = some c) :
    (popsOf c.events).Pairwise (fun a b => a < b) ∧
    (∀ t ts, c.queue = t :: ts → ∀ x ∈ c.queue, t ≤ x) ∧
    (∀ i c2, step (Label.pop i) c = some c2 → ∃ t ts, c.queue = t :: ts ∧
      c2.queue = ts ∧ popsOf c2.events = popsOf c.events ++ [t]) ∧
    (n = 1 → (∀ l ∈ tr, l ≠ Label.cBeginRun) →
      (runsOf c.events).Pairwise (fun a b => a < b)) := by
  have hc := inv_reachable n tr c h
  refine ⟨hc.popsSorted, ?_, ?_, ?_⟩
  · intro t ts hq x hx
    have hp := hc.queueSorted
    rw [hq] at hp hx
    have hpc := List.pairwise_cons.mp hp
    rcases List.mem_cons.mp hx with hx | hx
    · rw [hx]
    · exact Nat.le_of_lt (hpc.1 x hx)
  · intro i c2 h2
    obtain ⟨hw, hsd, hcap, t, ts, hq, hq2, hev, hww⟩ := pop_guard c c2 i h2
    exact ⟨t, ts, hq, hq2, by rw [hev, popsOf_append_pop]⟩
  · intro hn hcb
    subst hn
    have hs0 : SingleInv (initConfig 1) := by
      intro w hw
      have hx : ([WStatus.idle] : List WStatus) = [w] := hw
      simp at hx
      rw [← hx]
      rfl
    have hs := single_runTrace tr (initConfig 1) c h hcb hs0
    have hlen : c.workers.length = 1 := by
      rw [runTrace_workers_length tr (initConfig 1) c h]
      rfl
    obtain ⟨w, hw⟩ := List.length_eq_one.mp hlen
    have heq := hs w hw
    have hsub1 : (runsOf c.events).Sublist (workerPopsOf c.events) := by
      rw [← heq]
      exact List.sublist_append_left _ _
    have hsub2 := workerPops_sublist c.events
    exact hc.popsSorted.sublist (hsub1.trans hsub2)

/-- The single-worker FIFO witness trace: two tasks executed in order. -/
def fifoTrace : List Label :=
  [Label.addTask none, Label.addTask none, Label.startWorkers, Label.pop 0,
   Label.beginRun 0, Label.endRun 0, Label.finalizeTask 0, Label.pop 0,
   Label.beginRun 0]

/-- The state at the end of the FIFO witness trace. -/
def fifoEnd : Config :=
  { queue := [], nextId := 2, started := true, shuttingDown := false,
    waitingCount := 0, maxActive := 1, workers := [WStatus.running 1],
    client := CStatus.cIdle, waiter := WaiterStatus.wIdle,
    events := [Event.pop 0 true, Event.run 0, Event.fin 0 true,
               Event.pop 1 true, Event.run 1] }

/-- Witness for C5: the dequeue and run sequences of the witness trace are
in submission order. -/
theorem C5_fifo_witness :
    (popsOf fifoEnd.events).Pairwise (fun a b => a < b) ∧
    (runsOf fifoEnd.events).Pairwise (fun a b => a < b) :=
  ⟨(C5_fifo 1 fifoTrace fifoEnd (by decide)).1,
   (C5_fifo 1 fifoTrace fifoEnd (by decide)).2.2.2 rfl (by decide)⟩

end ThreadPoolModel

namespace BarrierModel

/-- C3 (spec-modelled, the barrier implementation file is not among the
sources): a barrier armed with count N > 0 releases all parties blocked on
it exactly when the net contributions reach N (the count hits exactly
zero), and not before: along any sequence of contributions of arbitrary
signed deltas by any parties whose partial sums keep the count positive,
every party that blocked stays blocked, and the contribution that brings
the count to exactly zero releases them all. -/
theorem C3_barrier_rendezvous (N : Int) (hN : 0 < N) (ops : List BOp) (f : BOp)
    (hpos : ∀ k, k < ops.length → 0 < N + sumDeltas (ops.take (k + 1)))
    (hzero : N + sumDeltas ops + deltaOf f = 0) :
    (applyOps ⟨N, []⟩ (ops ++ [f])).count = 0 ∧
    (applyOps ⟨N, []⟩ (ops ++ [f])).blocked = [] ∧
    (∀ k, k ≤ ops.length →
      (applyOps ⟨N, []⟩ (ops.take k)).blocked = waitersOf (ops.take k)) := by
  have hips : ∀ k, k < ops.length →
      0 < (⟨N, []⟩ : BarrierState).count + sumDeltas (ops.take (k + 1)) := hpos
  have hstate := applyOps_pos ops ⟨N, []⟩ hips
  have happfl : applyOps ⟨N, []⟩ (ops ++ [f]) = applyOp (applyOps ⟨N, []⟩ ops) f := by
    simp [applyOps, List.foldl_append]
  have hfin : applyOp (applyOps ⟨N, []⟩ ops) f = ⟨0, []⟩ := by
    apply applyOp_zero
    rw [hstate.1]
    show N + sumDeltas ops + deltaOf f = 0
    exact hzero
  refine ⟨?_, ?_, ?_⟩
  · rw [happfl, hfin]
  · rw [happfl, hfin]
  · intro k hk
    have hx := applyOps_pos (ops.take k) ⟨N, []⟩ ?hyp
    case hyp =>
      intro j hj
      have hj2 : j < ops.length := by
        have := hj
        rw [List.length_take] at this
        omega
      have hj3 : j + 1 ≤ k := by
        have := hj
        rw [List.length_take] at this
        omega
      rw [List.take_take, min_eq_left hj3]
      exact hpos j hj2
    rw [hx.2]
    simp

/-- Witness for C3: two parties wait on a barrier armed with 2; the first
stays blocked, the second call releases both. -/
theorem C3_barrier_rendezvous_witness :
    (applyOps ⟨2, []⟩ ([BOp.incWait 1 (-1)] ++ [BOp.incWait 2 (-1)])).count = 0 ∧
    (applyOps ⟨2, []⟩ ([BOp.incWait 1 (-1)] ++ [BOp.incWait 2 (-1)])).blocked = [] ∧
    (∀ k, k ≤ [BOp.incWait 1 (-1)].length →
      (applyOps ⟨2, []⟩ ([BOp.incWait 1 (-1)].take k)).blocked
        = waitersOf ([BOp.incWait 1 (-1)].take k)) :=
  C3_barrier_rendezvous 2 (by decide) [BOp.incWait 1 (-1)] (BOp.incWait 2 (-1))
    (by decide) (by decide)

/-- C9 (spec-modelled): a timed increment_and_wait whose timeout elapses
before the count reaches zero returns a timed-out indicator and does not
retract the applied delta: on Barrier(0), increment_and_wait(1, timeout)
leaves count 1 and blocks the caller; the timeout firing returns true and
leaves count 1; the count stays 1 until an explicit init resets it, which
requires no blocked party and succeeds here. -/
theorem C9_timed_wait :
    incrementAndWait ⟨0, []⟩ 7 1 = ⟨1, [7]⟩ ∧
    timeoutFire ⟨1, [7]⟩ 7 = (⟨1, []⟩, true) ∧
    initBarrier ⟨1, []⟩ 0 = some ⟨0, []⟩ := by
  refine ⟨by decide, by decide, by decide⟩

end BarrierModel
